import Mathlib

/-!
Verification development for PhotoZipper.

The Python sources under `photozipper/` are shallowly embedded below:

* `pattern_matcher.py` : regex search (`extract_group`) and directory
  scanning/grouping (`scan_and_group`).  Pattern compilation (`re.compile`)
  is treated as an oracle producing a `RegularExpression Char`; matching
  semantics uses Mathlib's verified Brzozowski-derivative matcher `rmatch`.
  At the leftmost matching position the model selects the longest matching
  span; Python's engine selects a span by backtracking priority.  Both
  return some span matching at the same leftmost position, which is the
  granularity at which the theorems below are stated.
* `file_organizer.py`, `zip_creator.py`, `logger.py`, `cli.py` : modelled
  over an explicit filesystem state (`FS`), with OS errors represented by
  a set of paths on which mutating system calls fail.

Filenames are lists of characters and paths are lists of filename
components, so that listing a directory and comparing whole filesystem
states are executable operations.
-/

open RegularExpression

/-- Filename: Python strings are modelled as lists of characters. -/
abbrev Name := List Char

/-- Longest length `k` (with `k ≤ s.length`) such that the pattern matches
`s.take k`, or `none` if no prefix length of `s` matches at all.  This models
the span that the compiled pattern yields when anchored at a fixed starting
position of `re.search`. -/
def matchLenAt (p : RegularExpression Char) (s : List Char) : Option Nat :=
  ((List.range (s.length + 1)).reverse).find? (fun k => p.rmatch (s.take k))

/-- Scan of `re.search` over successive start positions: returns the
`(start, length)` span of the first position admitting a match. -/
def searchAux (p : RegularExpression Char) : List Char → Option (Nat × Nat)
  | [] =>
    match matchLenAt p [] with
    | some k => some (0, k)
    | none => none
  | a :: t =>
    match matchLenAt p (a :: t) with
    | some k => some (0, k)
    | none => (searchAux p t).map (fun ik => (ik.1 + 1, ik.2))

/-- Embedding of `re.search(pattern, filename)`, reduced to the span of
`match.group(0)`. -/
def re_search (p : RegularExpression Char) (f : Name) : Option (Nat × Nat) :=
  searchAux p f

/-- Embedding of `pattern_matcher.extract_group`: the substring of the
filename matched by the leftmost occurrence of the pattern, else `none`. -/
def extract_group (filename : Name) (p : RegularExpression Char) : Option Name :=
  match re_search p filename with
  | some ik => some ((filename.drop ik.1).take ik.2)
  | none => none

/-- Filesystem path: a sequence of filename components. -/
abbrev FPath := List Name

/-- Contents of a regular file: either raw bytes or a zip archive holding a
flat list of named members. -/
inductive Content
  | raw (bytes : List Nat)
  | archive (entries : List (Name × List Nat))
deriving DecidableEq

/-- Byte size reported by stat for a file's contents. -/
def Content.size : Content → Nat
  | .raw b => b.length
  | .archive es => (es.map (fun e => e.2.length)).sum

/-- Byte stream read when a file is copied or archived. -/
def Content.toBytes : Content → List Nat
  | .raw b => b
  | .archive es => (es.map (fun e => e.2)).flatten

/-- Directory entry: a regular file with contents, or a directory. -/
inductive Entry
  | file (c : Content)
  | dir
deriving DecidableEq

/-- Size reported by stat (directories get a nominal size of 0). -/
def Entry.size : Entry → Nat
  | .file c => c.size
  | .dir => 0

/-- Filesystem state: an association list from paths to entries (its order
models filesystem iteration order), plus the set of paths on which mutating
system calls raise PermissionError/OSError. -/
structure FS where
  entries : List (FPath × Entry)
  denied : List FPath
deriving DecidableEq

def FS.lookup (fs : FS) (p : FPath) : Option Entry :=
  (fs.entries.find? (fun pe => pe.1 = p)).map (·.2)

/-- Embedding of Path.exists(). -/
def FS.existsPath (fs : FS) (p : FPath) : Bool :=
  (fs.lookup p).isSome

/-- Embedding of Path.is_file(). -/
def FS.isFile (fs : FS) (p : FPath) : Bool :=
  match fs.lookup p with
  | some (.file _) => true
  | _ => false

/-- Embedding of Path.is_dir(). -/
def FS.isDir (fs : FS) (p : FPath) : Bool :=
  match fs.lookup p with
  | some .dir => true
  | _ => false

def FS.getFile (fs : FS) (p : FPath) : Option Content :=
  match fs.lookup p with
  | some (.file c) => some c
  | _ => none

/-- Embedding of Path.stat().st_size; none when stat raises FileNotFoundError. -/
def FS.statSize (fs : FS) (p : FPath) : Option Nat :=
  (fs.lookup p).map Entry.size

/-- Association-list update: replace the entry at a present key in place,
append a fresh key at the end of the listing. -/
def setKey (p : FPath) (e : Entry) : List (FPath × Entry) → List (FPath × Entry)
  | [] => [(p, e)]
  | pe :: rest => if pe.1 = p then (p, e) :: rest else pe :: setKey p e rest

/-- Write or replace an entry; a present key is updated in place, a fresh key
is appended at the end of the listing. -/
def FS.setEntry (fs : FS) (p : FPath) (e : Entry) : FS :=
  { fs with entries := setKey p e fs.entries }

def FS.removeEntry (fs : FS) (p : FPath) : FS :=
  { fs with entries := fs.entries.filter (fun pe => ¬ pe.1 = p) }

/-- Selects the entries that are direct children of `d`. -/
def childEntry (d : FPath) (pe : FPath × Entry) : Option (Name × Entry) :=
  if pe.1.take d.length = d then
    match pe.1.drop d.length with
    | [n] => some (n, pe.2)
    | _ => none
  else none

/-- Embedding of Path.iterdir(): the direct children of a directory, in
listing order, with their entries. -/
def FS.iterdir (fs : FS) (d : FPath) : List (Name × Entry) :=
  fs.entries.filterMap (childEntry d)

/-- Well-formedness: at most one entry per path. -/
def FS.wf (fs : FS) : Prop :=
  (fs.entries.map (·.1)).Nodup

/-- Whether opening `p` for writing succeeds: not permission-denied, parent
directory present, and the path is not an existing directory. -/
def FS.writeOk (fs : FS) (p : FPath) : Bool :=
  ¬ p ∈ fs.denied ∧ fs.isDir p.dropLast ∧ ¬ fs.lookup p = some .dir

/-- Single mkdir step with exist_ok semantics: an existing directory is fine,
an existing file or a denied path raises (none). -/
def FS.mkdirOne (fs : FS) (p : FPath) : Option FS :=
  match fs.lookup p with
  | some .dir => some fs
  | some (.file _) => none
  | none => if p ∈ fs.denied then none else some (fs.setEntry p .dir)

/-- The nonempty ancestors of a path, shortest first, ending with the path. -/
def pathPrefixes (p : FPath) : List FPath :=
  (List.range p.length).map (fun i => p.take (i + 1))

/-- Embedding of file_organizer.create_folder:
folder_path.mkdir(parents=True, exist_ok=True); none models a raised OSError. -/
def create_folder (fs : FS) (p : FPath) : Option FS :=
  (pathPrefixes p).foldlM FS.mkdirOne fs

/-- Embedding of file_organizer.copy_file_with_metadata: shutil.copy2 with
PermissionError/OSError caught, reported as a boolean. -/
def copy_file_with_metadata (fs : FS) (source target : FPath) : Bool × FS :=
  match fs.getFile source with
  | none => (false, fs)
  | some c =>
    if fs.writeOk target then (true, fs.setEntry target (.file c))
    else (false, fs)

/-- Embedding of file_organizer.verify_copy.  The error case models the
uncaught exception raised by source.stat() (or target.stat()) escaping to the
caller instead of a boolean being returned. -/
def verify_copy (fs : FS) (source target : FPath) : Except Unit Bool :=
  if ¬ fs.existsPath target then .ok false
  else
    match fs.statSize source with
    | none => .error ()
    | some ss =>
      match fs.statSize target with
      | none => .error ()
      | some ts => .ok (ss = ts)

/-- Embedding of file_organizer.handle_merge. -/
def handle_merge (fs : FS) (target : FPath) : Bool × String :=
  if fs.existsPath target then (false, "skip") else (true, "copy")

/-- Embedding of file_organizer.delete_original: unlink with PermissionError
and FileNotFoundError caught (false); unlinking a directory raises an
IsADirectoryError that is not caught (error). -/
def delete_original (fs : FS) (p : FPath) : Except Unit (Bool × FS) :=
  match fs.lookup p with
  | none => .ok (false, fs)
  | some .dir => .error ()
  | some (.file _) =>
    if p ∈ fs.denied then .ok (false, fs)
    else .ok (true, fs.removeEntry p)

/-- Error cases of zip_creator.create_zip: FileNotFoundError for a missing
folder, any other OSError during archiving. -/
inductive ZipError
  | notFound
  | ioError
deriving DecidableEq

/-- Embedding of zip_creator.add_folder_to_zip: the flat members added from a
folder's direct regular-file entries (subdirectories skipped), each stored
under its base filename. -/
def add_folder_to_zip (fs : FS) (folder : FPath) : List (Name × List Nat) :=
  (fs.iterdir folder).filterMap (fun ne =>
    match ne.2 with
    | .file c => some (ne.1, c.toBytes)
    | .dir => none)

/-- Embedding of zip_creator.create_zip. -/
def create_zip (fs : FS) (folder zipPath : FPath) : Except ZipError FS :=
  if ¬ fs.existsPath folder then .error .notFound
  else if ¬ fs.isDir folder then .error .ioError
  else if ¬ fs.writeOk zipPath then .error .ioError
  else .ok (fs.setEntry zipPath (.file (.archive (add_folder_to_zip fs folder))))

/-- Embedding of models.SourceFile (modification time omitted: no clock in
the model). -/
structure SourceFile where
  path : FPath
  name : Name
  size : Nat
  group : Name
deriving DecidableEq

/-- Embedding of models.FileGroup. -/
structure FileGroup where
  name : Name
  files : List SourceFile
deriving DecidableEq

def FileGroup.file_count (g : FileGroup) : Nat :=
  g.files.length

/-- Insertion-ordered dictionary update used by scan_and_group: append the
file to the group with this identifier, creating the group on first sight at
the end (Python dicts preserve insertion order). -/
def addToGroups : List FileGroup → Name → SourceFile → List FileGroup
  | [], g, f => [⟨g, [f]⟩]
  | fg :: rest, g, f =>
    if fg.name = g then ⟨fg.name, fg.files ++ [f]⟩ :: rest
    else fg :: addToGroups rest g f

/-- Loop of pattern_matcher.scan_and_group over a directory listing. -/
def scanList (p : RegularExpression Char) (src : FPath) :
    List (Name × Entry) → List FileGroup → List FileGroup
  | [], gs => gs
  | ne :: rest, gs =>
    match ne.2 with
    | .dir => scanList p src rest gs
    | .file c =>
      match extract_group ne.1 p with
      | none => scanList p src rest gs
      | some g => scanList p src rest (addToGroups gs g ⟨src ++ [ne.1], ne.1, c.size, g⟩)

/-- Embedding of pattern_matcher.scan_and_group. -/
def scan_and_group (fs : FS) (src : FPath) (p : RegularExpression Char) :
    List FileGroup :=
  scanList p src (fs.iterdir src) []

def strName (s : String) : Name :=
  s.data

/-- FPath of the log file placed in the output directory by setup_logging. -/
def logPath (output : FPath) : FPath :=
  output ++ [strName "photozipper.log"]

/-- Embedding of logger.setup_logging's filesystem effect: create the output
directory (with parents) and open photozipper.log in append mode, creating it
when missing; OSError is caught, leaving console-only logging and the
filesystem unchanged.  Log records appended later are not modelled. -/
def setup_logging (fs : FS) (output : FPath) : FS :=
  match create_folder fs output with
  | none => fs
  | some fs' =>
    match fs'.lookup (logPath output) with
    | some _ => fs'
    | none =>
      if logPath output ∈ fs'.denied then fs'
      else fs'.setEntry (logPath output) (.file (.raw []))

/-- Embedding of the cli.main inputs after argument parsing; re.compile is an
oracle recorded in patternCompiled (none models a raised re.error). -/
structure Args where
  source : FPath
  patternText : Name
  patternCompiled : Option (RegularExpression Char)
  output : FPath
  dry_run : Bool
  delete_originals : Bool
  zip_only : Bool

/-- Embedding of cli.validate_arguments (flag compatibility only). -/
def validate_arguments (a : Args) : Option String :=
  if a.dry_run && a.delete_originals then
    some "Error: --dry-run and --delete-originals cannot be used together"
  else if a.dry_run && a.zip_only then
    some "Error: --dry-run and --zip-only cannot be used together"
  else none

/-- Embedding of pattern_matcher.validate_pattern composed with the
re.compile oracle: rejects empty or blank patterns and failed compilations. -/
def validate_pattern (a : Args) : Except Unit (RegularExpression Char) :=
  if a.patternText.isEmpty || a.patternText.all Char.isWhitespace then .error ()
  else
    match a.patternCompiled with
    | some r => .ok r
    | none => .error ()

/-- Summary counters of cli.main. -/
structure Stats where
  copied : Nat
  skipped : Nat
  deleted : Nat
deriving DecidableEq

/-- Result of a portion of the organizing loop: normal continuation or an
abort that makes main return exit code 1. -/
inductive StepRes
  | done (fs : FS) (st : Stats)
  | aborted (fs : FS)
deriving DecidableEq

/-- Per-file body of cli.main's copy loop.  The boolean returned by
copy_file_with_metadata is ignored by the caller, exactly as in the source;
verification failures and uncaught exceptions abort. -/
def processFile (a : Args) (groupFolder : FPath) (fs : FS) (st : Stats)
    (sf : SourceFile) : StepRes :=
  let target := groupFolder ++ [sf.name]
  if ¬ (handle_merge fs target).1 then
    .done fs { st with skipped := st.skipped + 1 }
  else if a.dry_run then
    .done fs st
  else
    let cw := copy_file_with_metadata fs sf.path target
    match verify_copy cw.2 sf.path target with
    | .ok true =>
      let st' := { st with copied := st.copied + 1 }
      if a.delete_originals then
        match delete_original cw.2 sf.path with
        | .ok bfs => .done bfs.2 { st' with deleted := st'.deleted + 1 }
        | .error _ => .aborted cw.2
      else
        .done cw.2 st'
    | .ok false => .aborted cw.2
    | .error _ => .aborted cw.2

/-- Fold of processFile over the files of one group. -/
def processFiles (a : Args) (groupFolder : FPath) :
    List SourceFile → FS → Stats → StepRes
  | [], fs, st => .done fs st
  | sf :: rest, fs, st =>
    match processFile a groupFolder fs st sf with
    | .done fs' st' => processFiles a groupFolder rest fs' st'
    | .aborted fs' => .aborted fs'

/-- Embedding of shutil.rmtree on a group folder (--zip-only): removes the
folder and everything below it; none models a raised OSError. -/
def rmtree (fs : FS) (d : FPath) : Option FS :=
  if fs.denied.any (fun q => q.take d.length = d) then none
  else some { fs with entries := fs.entries.filter (fun pe => ¬ pe.1.take d.length = d) }

def zipFileName (g : Name) : Name :=
  g ++ strName ".zip"

/-- Per-group body of cli.main: create the group folder, copy the files,
create the zip, optionally remove the folder (--zip-only).  Exceptions from
create_folder, create_zip or rmtree are caught by main's handlers and turn
into exit code 1, modelled as aborted. -/
def processGroup (a : Args) (fs : FS) (st : Stats) (g : FileGroup) : StepRes :=
  let groupFolder := a.output ++ [g.name]
  match (if a.dry_run then some fs else create_folder fs groupFolder) with
  | none => .aborted fs
  | some fs1 =>
    match processFiles a groupFolder g.files fs1 st with
    | .aborted fs2 => .aborted fs2
    | .done fs2 st2 =>
      if a.dry_run then .done fs2 st2
      else
        match create_zip fs2 groupFolder (a.output ++ [zipFileName g.name]) with
        | .error _ => .aborted fs2
        | .ok fs3 =>
          if a.zip_only then
            match rmtree fs3 groupFolder with
            | none => .aborted fs3
            | some fs4 => .done fs4 st2
          else .done fs3 st2

/-- Fold of processGroup over all scanned groups. -/
def processGroups (a : Args) : List FileGroup → FS → Stats → StepRes
  | [], fs, st => .done fs st
  | g :: rest, fs, st =>
    match processGroup a fs st g with
    | .done fs' st' => processGroups a rest fs' st'
    | .aborted fs' => .aborted fs'

/-- Embedding of cli.main after argument parsing: the exit code, the final
filesystem state, and the summary counters.  Progress display and log record
contents are not modelled. -/
def cliMain (a : Args) (fs : FS) : Nat × FS × Stats :=
  if (validate_arguments a).isSome then (1, fs, ⟨0, 0, 0⟩)
  else if ¬ fs.existsPath a.source then (1, fs, ⟨0, 0, 0⟩)
  else if ¬ fs.isDir a.source then (1, fs, ⟨0, 0, 0⟩)
  else
    match validate_pattern a with
    | .error _ => (1, fs, ⟨0, 0, 0⟩)
    | .ok p =>
      let fs1 := setup_logging fs a.output
      let groups := scan_and_group fs1 a.source p
      if groups.isEmpty then (0, fs1, ⟨0, 0, 0⟩)
      else
        match processGroups a groups fs1 ⟨0, 0, 0⟩ with
        | .done fs2 st => (0, fs2, st)
        | .aborted fs2 => (1, fs2, ⟨0, 0, 0⟩)

theorem matchLenAt_some {p : RegularExpression Char} {s : List Char} {k : Nat}
    (h : matchLenAt p s = some k) : k ≤ s.length ∧ p.rmatch (s.take k) = true := by
  rw [matchLenAt] at h
  constructor
  · have hmem := List.mem_of_find?_eq_some h
    rw [List.mem_reverse, List.mem_range] at hmem
    omega
  · have hp := List.find?_some h
    exact hp

theorem matchLenAt_none {p : RegularExpression Char} {s : List Char}
    (h : matchLenAt p s = none) : ∀ k, k ≤ s.length → p.rmatch (s.take k) = false := by
  intro k hk
  rw [matchLenAt] at h
  have hnot := List.find?_eq_none.mp h k (by rw [List.mem_reverse, List.mem_range]; omega)
  cases hb : p.rmatch (s.take k) with
  | false => rfl
  | true => exact absurd hb hnot

/-- A match anchored at a position is exactly a matching length of the
corresponding suffix. -/
theorem matchLenAt_none_iff_no_match {p : RegularExpression Char} {s : List Char}
    (h : matchLenAt p s = none) : ∀ t u, s = t ++ u → p.rmatch t = false := by
  intro t u hsu
  have hlen : t.length ≤ s.length := by rw [hsu, List.length_append]; omega
  have ht : s.take t.length = t := by rw [hsu]; exact List.take_left t u
  have := matchLenAt_none h t.length hlen
  rwa [ht] at this

theorem searchAux_some {p : RegularExpression Char} :
    ∀ {s : List Char} {i k : Nat}, searchAux p s = some (i, k) →
      matchLenAt p (s.drop i) = some k ∧ ∀ j, j < i → matchLenAt p (s.drop j) = none := by
  intro s
  induction s with
  | nil =>
    intro i k h
    rw [searchAux] at h
    split at h
    · next k' hm =>
      cases h
      exact ⟨by simpa using hm, fun j hj => absurd hj (Nat.not_lt_zero j)⟩
    · exact absurd h (by simp)
  | cons a t ih =>
    intro i k h
    rw [searchAux] at h
    split at h
    · next k' hm =>
      cases h
      exact ⟨by simpa using hm, fun j hj => absurd hj (Nat.not_lt_zero j)⟩
    · next hm =>
      cases hrec : searchAux p t with
      | none => rw [hrec] at h; exact absurd h (by simp)
      | some ik =>
        rw [hrec, Option.map_some'] at h
        obtain ⟨i', k''⟩ := ik
        cases h
        obtain ⟨h1, h2⟩ := ih hrec
        refine ⟨by simpa using h1, ?_⟩
        intro j hj
        cases j with
        | zero => simpa using hm
        | succ j' =>
          have : j' < i' := by omega
          simpa using h2 j' this

theorem searchAux_none {p : RegularExpression Char} :
    ∀ {s : List Char}, searchAux p s = none → ∀ j, matchLenAt p (s.drop j) = none := by
  intro s
  induction s with
  | nil =>
    intro h j
    rw [searchAux] at h
    split at h
    · next k' hm => exact absurd h (by simp)
    · next hm => simpa [List.drop_nil] using hm
  | cons a t ih =>
    intro h j
    rw [searchAux] at h
    split at h
    · next k' hm => exact absurd h (by simp)
    · next hm =>
      cases hrec : searchAux p t with
      | some ik => rw [hrec, Option.map_some'] at h; exact absurd h (by simp)
      | none =>
        cases j with
        | zero => simpa using hm
        | succ j' => simpa using ih hrec j'

/-- **C6**.  For every filename `f` and pattern `p`, `extract_group f p`
returns the substring of `f` matched at the leftmost position where `p`
matches (unanchored, case-sensitive: `Char` equality), or `none` when no
substring of `f` matches `p`; a returned value is always literally a
contiguous slice of `f`. -/
theorem c6_extract_group_leftmost_substring (p : RegularExpression Char) (f : Name) :
    (∀ s, extract_group f p = some s →
      ∃ i, i ≤ f.length ∧
        s = (f.drop i).take s.length ∧
        (∃ u, f.drop i = s ++ u) ∧
        p.rmatch s = true ∧
        (∀ j, j < i → ∀ t u, f.drop j = t ++ u → p.rmatch t = false)) ∧
    (extract_group f p = none →
      ∀ j t u, f.drop j = t ++ u → p.rmatch t = false) := by
  constructor
  · intro s hs
    rw [extract_group] at hs
    split at hs
    · next ik hsearch =>
      obtain ⟨i, k⟩ := ik
      have hs' : (f.drop i).take k = s := by
        simp only [Option.some.injEq] at hs
        exact hs
      obtain ⟨h1, h2⟩ := searchAux_some hsearch
      obtain ⟨hk, hr⟩ := matchLenAt_some h1
      have hslen : s.length = k := by
        rw [← hs', List.length_take, List.length_drop]
        rw [List.length_drop] at hk
        omega
      refine ⟨i, ?_, ?_, ?_, ?_, ?_⟩
      · by_contra hlt
        push_neg at hlt
        have hd : f.drop i = [] := List.drop_eq_nil_of_le (Nat.le_of_lt hlt)
        rw [hd] at h1
        have := h2 f.length hlt
        rw [List.drop_length] at this
        rw [this] at h1
        exact absurd h1 (by simp)
      · rw [hslen, hs']
      · exact ⟨(f.drop i).drop k, by rw [← hs']; exact (List.take_append_drop k (f.drop i)).symm⟩
      · rw [← hs']; exact hr
      · intro j hj t u htu
        exact matchLenAt_none_iff_no_match (h2 j hj) t u htu
    · exact absurd hs (by simp)
  · intro hnone j t u htu
    rw [extract_group] at hnone
    split at hnone
    · next ik hsearch => exact absurd hnone (by simp)
    · next hsearch =>
      exact matchLenAt_none_iff_no_match (searchAux_none hsearch j) t u htu

/-- Witness for C6 at a concrete input: pattern `"a"` on filename `"xa"`
matches the slice at position 1. -/
theorem c6_witness :
    ∃ i, i ≤ (['x', 'a'] : Name).length ∧
      (['a'] : Name) = ((['x', 'a'] : Name).drop i).take (['a'] : Name).length ∧
      (∃ u, (['x', 'a'] : Name).drop i = ['a'] ++ u) ∧
      (RegularExpression.char 'a').rmatch ['a'] = true ∧
      (∀ j, j < i → ∀ t u, (['x', 'a'] : Name).drop j = t ++ u →
        (RegularExpression.char 'a').rmatch t = false) :=
  (c6_extract_group_leftmost_substring (RegularExpression.char 'a') ['x', 'a']).1
    ['a'] (by decide)

/-! Basic association-list and filesystem lemmas. -/

theorem find?_setKey_self (p : FPath) (e : Entry) :
    ∀ l : List (FPath × Entry),
      (setKey p e l).find? (fun pe => pe.1 = p) = some (p, e) := by
  intro l
  induction l with
  | nil => simp [setKey]
  | cons pe rest ih =>
    rw [setKey]
    by_cases h : pe.1 = p
    · simp [h]
    · simp only [if_neg h]
      rw [List.find?_cons]
      simp [h, ih]

theorem find?_setKey_ne (p q : FPath) (e : Entry) (hne : q ≠ p) :
    ∀ l : List (FPath × Entry),
      (setKey p e l).find? (fun pe => pe.1 = q) = l.find? (fun pe => pe.1 = q) := by
  intro l
  induction l with
  | nil =>
    rw [setKey]
    rw [List.find?_cons_of_neg, List.find?_nil]
    simp only [decide_eq_true_eq]
    exact fun hh => hne hh.symm
  | cons pe rest ih =>
    rw [setKey]
    by_cases h : pe.1 = p
    · rw [if_pos h]
      rw [List.find?_cons_of_neg, List.find?_cons_of_neg]
      · simp only [decide_eq_true_eq]
        rw [h]
        exact fun hh => hne hh.symm
      · simp only [decide_eq_true_eq]
        exact fun hh => hne hh.symm
    · rw [if_neg h]
      by_cases h2 : pe.1 = q
      · rw [List.find?_cons_of_pos, List.find?_cons_of_pos] <;>
          simp only [decide_eq_true_eq] <;> exact h2
      · rw [List.find?_cons_of_neg, List.find?_cons_of_neg, ih] <;>
          simp only [decide_eq_true_eq] <;> exact h2

theorem FS.lookup_setEntry (fs : FS) (p q : FPath) (e : Entry) :
    (fs.setEntry p e).lookup q = if q = p then some e else fs.lookup q := by
  by_cases h : q = p
  · subst h
    simp [FS.lookup, FS.setEntry, find?_setKey_self]
  · simp [FS.lookup, FS.setEntry, find?_setKey_ne p q e h, h]

theorem setKey_keys (p : FPath) (e : Entry) :
    ∀ l : List (FPath × Entry),
      (setKey p e l).map (fun pe => pe.1) =
        if p ∈ l.map (fun pe : FPath × Entry => pe.1) then l.map (fun pe => pe.1)
        else l.map (fun pe => pe.1) ++ [p] := by
  intro l
  induction l with
  | nil => simp [setKey]
  | cons pe rest ih =>
    rw [setKey]
    by_cases h : pe.1 = p
    · rw [if_pos h]
      have hmem : p ∈ (pe :: rest).map (fun pe : FPath × Entry => pe.1) := by
        rw [List.map_cons, h]
        exact List.mem_cons_self _ _
      rw [if_pos hmem, List.map_cons, List.map_cons, h]
    · rw [if_neg h, List.map_cons, ih, List.map_cons]
      by_cases h2 : p ∈ rest.map (fun pe : FPath × Entry => pe.1)
      · have hmem : p ∈ pe.1 :: rest.map (fun pe : FPath × Entry => pe.1) :=
          List.mem_cons_of_mem _ h2
        rw [if_pos h2, if_pos hmem]
      · have hmem : p ∉ pe.1 :: rest.map (fun pe : FPath × Entry => pe.1) := by
          intro hc
          rcases List.mem_cons.mp hc with hc | hc
        
          · exact h hc.symm
          · exact h2 hc
        rw [if_neg h2, if_neg hmem, List.cons_append]

theorem FS.wf_setEntry (fs : FS) (p : FPath) (e : Entry) (h : fs.wf) :
    (fs.setEntry p e).wf := by
  rw [FS.wf, FS.setEntry]
  simp only []
  rw [setKey_keys]
  by_cases hm : p ∈ fs.entries.map (fun pe : FPath × Entry => pe.1)
  · rw [if_pos hm]; exact h
  · rw [if_neg hm]
    rw [List.nodup_append]
    refine ⟨h, List.nodup_singleton p, ?_⟩
    intro x hx hx2
    rw [List.mem_singleton] at hx2
    subst hx2
    exact hm hx

theorem FS.isDir_iff (fs : FS) (q : FPath) :
    fs.isDir q = true ↔ fs.lookup q = some .dir := by
  rw [FS.isDir]
  cases h : fs.lookup q with
  | none => simp
  | some e => cases e <;> simp

theorem FS.isFile_iff (fs : FS) (q : FPath) :
    fs.isFile q = true ↔ ∃ c, fs.lookup q = some (.file c) := by
  rw [FS.isFile]
  cases h : fs.lookup q with
  | none => simp
  | some e => cases e <;> simp

theorem FS.existsPath_iff (fs : FS) (q : FPath) :
    fs.existsPath q = true ↔ ∃ e, fs.lookup q = some e := by
  rw [FS.existsPath]
  cases h : fs.lookup q <;> simp

theorem FS.getFile_iff (fs : FS) (q : FPath) (c : Content) :
    fs.getFile q = some c ↔ fs.lookup q = some (.file c) := by
  rw [FS.getFile]
  cases h : fs.lookup q with
  | none => simp
  | some e => cases e <;> simp


/-- Characterization of verify_copy by cases on the state. -/
theorem verify_copy_eq (fs : FS) (source target : FPath) :
    verify_copy fs source target =
      if fs.existsPath target = true then
        match fs.statSize source with
        | none => .error ()
        | some ss =>
          match fs.statSize target with
          | none => .error ()
          | some ts => .ok (ss = ts)
      else .ok false := by
  rw [verify_copy]
  by_cases h : fs.existsPath target = true <;> simp [h]

/-- **C9**.  verify_copy returns true exactly when the target exists and its
byte size equals the source's byte size; a target holding strictly fewer
bytes than the source (a truncated write) makes it return false. -/
theorem c9_verify_copy_size_check (fs : FS) (source target : FPath) :
    (verify_copy fs source target = .ok true ↔
      fs.existsPath target = true ∧
        ∃ n, fs.statSize source = some n ∧ fs.statSize target = some n) ∧
    (∀ ss ts, fs.statSize source = some ss → fs.statSize target = some ts →
      ts < ss → verify_copy fs source target = .ok false) := by
  constructor
  · constructor
    · intro h
      rw [verify_copy_eq] at h
      by_cases ht : fs.existsPath target = true
      · cases hs : fs.statSize source with
        | none => simp [ht, hs] at h
        | some ss =>
          cases htt : fs.statSize target with
          | none => simp [ht, hs, htt] at h
          | some ts =>
            simp only [if_pos ht, hs, htt, Except.ok.injEq, decide_eq_true_eq] at h
            exact ⟨ht, ts, by rw [h], rfl⟩
      · simp [ht] at h
    · rintro ⟨ht, n, hn1, hn2⟩
      rw [verify_copy_eq, if_pos ht]
      simp [hn1, hn2]
  · intro ss ts hs htt hlt
    have ht : fs.existsPath target = true := by
      rw [FS.existsPath]
      cases h : fs.lookup target with
      | none => rw [FS.statSize, h] at htt; exact absurd htt (by simp)
      | some e => simp
    have hne : ¬ (ss = ts) := by omega
    rw [verify_copy_eq, if_pos ht]
    simp [hs, htt, hne]

/-- Witness for C9: a source of two bytes and a target truncated to one byte
fail verification. -/
theorem c9_witness :
    verify_copy ⟨[([['s']], .file (.raw [7, 8])), ([['t']], .file (.raw [7]))], []⟩
      [['s']] [['t']] = .ok false :=
  (c9_verify_copy_size_check _ [['s']] [['t']]).2 2 1 (by decide) (by decide) (by decide)

/-- **C10**.  verify_copy is not total over its bool-returning interface:
when the target exists but the source does not, source.stat() raises and the
error escapes instead of a boolean being returned; only when the target is
absent does it return false without consulting the source at all. -/
theorem c10_verify_copy_raises_on_missing_source (fs : FS) (source target : FPath) :
    (fs.existsPath target = true → fs.existsPath source = false →
      verify_copy fs source target = .error ()) ∧
    (fs.existsPath target = false → verify_copy fs source target = .ok false) := by
  constructor
  · intro ht hs
    have hsn : fs.statSize source = none := by
      rw [FS.statSize]
      cases h : fs.lookup source with
      | none => rfl
      | some e => rw [FS.existsPath, h] at hs; exact absurd hs (by simp)
    rw [verify_copy_eq, if_pos ht]
    simp [hsn]
  · intro ht
    rw [verify_copy_eq]
    simp [ht]

/-- Witness for C10: target present, source path absent. -/
theorem c10_witness :
    verify_copy ⟨[([['t']], .file (.raw [7]))], []⟩ [['s']] [['t']] = .error () ∧
    verify_copy ⟨[([['t']], .file (.raw [7]))], []⟩ [['s']] [['u']] = .ok false :=
  ⟨(c10_verify_copy_raises_on_missing_source _ [['s']] [['t']]).1 (by decide) (by decide),
   (c10_verify_copy_raises_on_missing_source _ [['s']] [['u']]).2 (by decide)⟩

/-- Skip step of the per-file loop, shared by several results below: an
existing target is skipped and the filesystem is left untouched. -/
theorem processFile_skip_of_exists (a : Args) (groupFolder : FPath) (fs : FS)
    (st : Stats) (sf : SourceFile)
    (h : fs.existsPath (groupFolder ++ [sf.name]) = true) :
    processFile a groupFolder fs st sf = .done fs { st with skipped := st.skipped + 1 } := by
  rw [processFile, handle_merge]
  simp [h]

/-- **C5**.  If a file already exists at the target path before a copy
attempt, handle_merge always decides skip (never overwrite), the whole
filesystem — in particular the existing destination file's contents — is left
unchanged, and the file is counted as skipped. -/
theorem c5_collision_always_skip (a : Args) (groupFolder : FPath) (fs : FS)
    (st : Stats) (sf : SourceFile)
    (h : fs.existsPath (groupFolder ++ [sf.name]) = true) :
    handle_merge fs (groupFolder ++ [sf.name]) = (false, "skip") ∧
    processFile a groupFolder fs st sf =
      .done fs { st with skipped := st.skipped + 1 } := by
  constructor
  · rw [handle_merge]; simp [h]
  · exact processFile_skip_of_exists a groupFolder fs st sf h

/-- Witness for C5: a destination file with content "1" and a source file
with different content; the step skips and leaves the state untouched. -/
theorem c5_witness :
    handle_merge
        ⟨[([['o'], ['a']], .file (.raw [1])), ([['s'], ['a']], .file (.raw [9, 9]))], []⟩
        ([['o']] ++ [['a']]) = (false, "skip") ∧
    processFile ⟨[['s']], ['a'], some (RegularExpression.char 'a'), [['o']], false, false, false⟩
        [['o']]
        ⟨[([['o'], ['a']], .file (.raw [1])), ([['s'], ['a']], .file (.raw [9, 9]))], []⟩
        ⟨0, 0, 0⟩ ⟨[['s'], ['a']], ['a'], 2, ['a']⟩ =
      .done ⟨[([['o'], ['a']], .file (.raw [1])), ([['s'], ['a']], .file (.raw [9, 9]))], []⟩
        ⟨0, 1, 0⟩ :=
  c5_collision_always_skip _ [['o']] _ ⟨0, 0, 0⟩ ⟨[['s'], ['a']], ['a'], 2, ['a']⟩ (by decide)

/-! Lookup and directory-listing correspondence. -/

theorem mem_entries_of_lookup {fs : FS} {p : FPath} {e : Entry}
    (h : fs.lookup p = some e) : (p, e) ∈ fs.entries := by
  rw [FS.lookup] at h
  cases hf : fs.entries.find? (fun pe => pe.1 = p) with
  | none => rw [hf] at h; exact absurd h (by simp)
  | some pe =>
    rw [hf] at h
    have hmem := List.mem_of_find?_eq_some hf
    have hp := List.find?_some hf
    simp only [decide_eq_true_eq] at hp
    simp only [Option.map_some'] at h
    have : pe = (p, e) := by
      obtain ⟨p1, e1⟩ := pe
      simp only at hp
      simp only [Option.some.injEq] at h
      rw [hp, h]
    rwa [this] at hmem

theorem find?_key_of_mem :
    ∀ {l : List (FPath × Entry)}, (l.map (fun pe => pe.1)).Nodup →
      ∀ {p : FPath} {e : Entry}, (p, e) ∈ l →
        l.find? (fun pe => pe.1 = p) = some (p, e) := by
  intro l
  induction l with
  | nil => intro _ p e h; exact absurd h (by simp)
  | cons pe rest ih =>
    intro hnd p e h
    rw [List.map_cons, List.nodup_cons] at hnd
    rcases List.mem_cons.mp h with h1 | h1
    · rw [List.find?_cons_of_pos _ (by rw [← h1]; simp), ← h1]
    · have hne : ¬ pe.1 = p := by
        intro hc
        exact hnd.1 (hc ▸ List.mem_map.mpr ⟨(p, e), h1, rfl⟩)
      rw [List.find?_cons_of_neg _ (by simpa using hne)]
      exact ih hnd.2 h1

theorem lookup_of_mem_entries {fs : FS} (hwf : fs.wf) {p : FPath} {e : Entry}
    (h : (p, e) ∈ fs.entries) : fs.lookup p = some e := by
  rw [FS.lookup, find?_key_of_mem hwf h]
  rfl

theorem childEntry_eq_some_iff (d : FPath) (pe : FPath × Entry) (n : Name) (e : Entry) :
    childEntry d pe = some (n, e) ↔ pe.1 = d ++ [n] ∧ pe.2 = e := by
  rw [childEntry]
  by_cases ht : pe.1.take d.length = d
  · rw [if_pos ht]
    constructor
    · intro h
      cases hd : pe.1.drop d.length with
      | nil => rw [hd] at h; exact absurd h (by simp)
      | cons m tl =>
        cases tl with
        | nil =>
          rw [hd] at h
          simp only [Option.some.injEq, Prod.mk.injEq] at h
          obtain ⟨hm, he⟩ := h
          refine ⟨?_, he⟩
          have := List.take_append_drop d.length pe.1
          rw [ht, hd, hm] at this
          exact this.symm
        | cons m2 tl2 => rw [hd] at h; exact absurd h (by simp)
    · rintro ⟨h1, h2⟩
      have hd : pe.1.drop d.length = [n] := by
        rw [h1]
        have : d.length = d.length := rfl
        rw [List.drop_append_of_le_length (by omega)]
        simp
      rw [hd, h2]
  · rw [if_neg ht]
    constructor
    · intro h; exact absurd h (by simp)
    · rintro ⟨h1, -⟩
      exfalso
      apply ht
      rw [h1]
      exact List.take_left d [n]

theorem mem_iterdir_iff {fs : FS} (hwf : fs.wf) (d : FPath) (n : Name) (e : Entry) :
    (n, e) ∈ fs.iterdir d ↔ fs.lookup (d ++ [n]) = some e := by
  rw [FS.iterdir]
  constructor
  · intro h
    obtain ⟨pe, hmem, hce⟩ := List.mem_filterMap.mp h
    obtain ⟨h1, h2⟩ := (childEntry_eq_some_iff d pe n e).mp hce
    apply lookup_of_mem_entries hwf
    obtain ⟨p1, e1⟩ := pe
    simp only at h1 h2
    rw [h1, h2] at hmem
    exact hmem
  · intro h
    refine List.mem_filterMap.mpr ⟨(d ++ [n], e), mem_entries_of_lookup h, ?_⟩
    exact (childEntry_eq_some_iff d (d ++ [n], e) n e).mpr ⟨rfl, rfl⟩

/-- Characterization of create_zip by cases on the state. -/
theorem create_zip_eq (fs : FS) (folder zipPath : FPath) :
    create_zip fs folder zipPath =
      if fs.existsPath folder = false then .error .notFound
      else if fs.isDir folder = false then .error .ioError
      else if fs.writeOk zipPath = false then .error .ioError
      else .ok (fs.setEntry zipPath (.file (.archive (add_folder_to_zip fs folder)))) := by
  rw [create_zip]
  cases h1 : fs.existsPath folder <;> cases h2 : fs.isDir folder <;>
    cases h3 : fs.writeOk zipPath <;> simp [h1, h2, h3]

/-- **C8**.  create_zip fails with NotFound when the folder does not exist;
on success the stored archive's members are exactly the direct regular-file
entries of the folder (subdirectories excluded), each stored flat under its
base filename; an empty folder yields an archive with zero entries. -/
theorem c8_create_zip_entries (fs : FS) (folder zipPath : FPath) (hwf : fs.wf) :
    (fs.existsPath folder = false → create_zip fs folder zipPath = .error .notFound) ∧
    (∀ fs', create_zip fs folder zipPath = .ok fs' →
      fs'.getFile zipPath = some (.archive (add_folder_to_zip fs folder)) ∧
      (∀ n b, (n, b) ∈ add_folder_to_zip fs folder ↔
        ∃ c, fs.lookup (folder ++ [n]) = some (.file c) ∧ b = c.toBytes) ∧
      (fs.iterdir folder = [] → add_folder_to_zip fs folder = [])) := by
  constructor
  · intro h
    rw [create_zip_eq, if_pos h]
  · intro fs' hok
    rw [create_zip_eq] at hok
    by_cases h1 : fs.existsPath folder = false
    · rw [if_pos h1] at hok; exact absurd hok (by simp)
    · rw [if_neg h1] at hok
      by_cases h2 : fs.isDir folder = false
      · rw [if_pos h2] at hok; exact absurd hok (by simp)
      · rw [if_neg h2] at hok
        by_cases h3 : fs.writeOk zipPath = false
        · rw [if_pos h3] at hok; exact absurd hok (by simp)
        · rw [if_neg h3] at hok
          simp only [Except.ok.injEq] at hok
          refine ⟨?_, ?_, ?_⟩
          · rw [← hok]
            rw [FS.getFile_iff, FS.lookup_setEntry]
            simp
          · intro n b
            constructor
            · intro hmem
              rw [add_folder_to_zip] at hmem
              obtain ⟨ne, hne, hf⟩ := List.mem_filterMap.mp hmem
              obtain ⟨n1, e⟩ := ne
              cases e with
              | dir => exact absurd hf (by simp)
              | file c =>
                simp only [Option.some.injEq, Prod.mk.injEq] at hf
                obtain ⟨hn, hb⟩ := hf
                subst hn
                exact ⟨c, (mem_iterdir_iff hwf folder n1 (.file c)).mp hne, hb.symm⟩
            · rintro ⟨c, hc, hb⟩
              rw [add_folder_to_zip]
              refine List.mem_filterMap.mpr ⟨(n, .file c), ?_, ?_⟩
              · exact (mem_iterdir_iff hwf folder n (.file c)).mpr hc
              · simp [hb]
          · intro hempty
            rw [add_folder_to_zip, hempty]
            rfl

instance (fs : FS) : Decidable fs.wf :=
  show Decidable ((fs.entries.map (·.1)).Nodup) from List.nodupDecidable _

instance {ε α : Type} [DecidableEq ε] [DecidableEq α] : DecidableEq (Except ε α) :=
  fun a b =>
    match a, b with
    | .ok x, .ok y =>
      if h : x = y then .isTrue (by rw [h]) else .isFalse (by intro hc; cases hc; exact h rfl)
    | .error x, .error y =>
      if h : x = y then .isTrue (by rw [h]) else .isFalse (by intro hc; cases hc; exact h rfl)
    | .ok x, .error y => .isFalse (by intro hc; cases hc)
    | .error x, .ok y => .isFalse (by intro hc; cases hc)

def c8fs : FS :=
  ⟨[([], .dir), ([['d']], .dir), ([['d'], ['f']], .file (.raw [5])),
    ([['d'], ['s']], .dir)], []⟩

/-- Witness for C8: a missing folder gives NotFound; zipping a folder with
one regular file and one subdirectory stores the archive at the zip path. -/
theorem c8_witness :
    create_zip c8fs [['x']] [['z']] = .error .notFound ∧
    (⟨[([], .dir), ([['d']], .dir), ([['d'], ['f']], .file (.raw [5])),
       ([['d'], ['s']], .dir),
       ([['z']], .file (.archive [(['f'], [5])]))], []⟩ : FS).getFile [['z']] =
      some (.archive (add_folder_to_zip c8fs [['d']])) :=
  ⟨(c8_create_zip_entries c8fs [['x']] [['z']] (by decide)).1 (by decide),
   ((c8_create_zip_entries c8fs [['d']] [['z']] (by decide)).2 _ (by decide)).1⟩

/-! Grouping order: reference definitions following the spec's wording, and
their correspondence with scan_and_group. -/

/-- Reference definition (spec wording): identifiers in order of first
appearance, accumulated left to right. -/
def firstSeen : List Name → List Name → List Name
  | [], acc => acc
  | n :: rest, acc => if n ∈ acc then firstSeen rest acc else firstSeen rest (acc ++ [n])

/-- Reference definition (spec wording): the flat sequence of
(identifier, SourceFile) pairs produced by a scan — one pair per direct
regular-file entry whose name matches the pattern; subdirectories and
non-matching files produce nothing. -/
def matchedPairs (p : RegularExpression Char) (src : FPath)
    (listing : List (Name × Entry)) : List (Name × SourceFile) :=
  listing.filterMap (fun ne =>
    match ne.2 with
    | .dir => none
    | .file c =>
      match extract_group ne.1 p with
      | none => none
      | some g => some (g, ⟨src ++ [ne.1], ne.1, c.size, g⟩))

/-- One grouping step, as a binary fold operation. -/
def groupStep (acc : List FileGroup) (gf : Name × SourceFile) : List FileGroup :=
  addToGroups acc gf.1 gf.2

theorem scanList_eq_foldl (p : RegularExpression Char) (src : FPath) :
    ∀ (listing : List (Name × Entry)) (gs : List FileGroup),
      scanList p src listing gs = (matchedPairs p src listing).foldl groupStep gs := by
  intro listing
  induction listing with
  | nil => intro gs; rfl
  | cons ne rest ih =>
    intro gs
    obtain ⟨n, e⟩ := ne
    cases e with
    | dir =>
      simp only [scanList, matchedPairs, List.filterMap_cons]
      exact ih gs
    | file c =>
      cases hg : extract_group n p with
      | none =>
        simp only [scanList, matchedPairs, List.filterMap_cons, hg]
        exact ih gs
      | some g =>
        simp only [scanList, matchedPairs, List.filterMap_cons, hg, List.foldl_cons]
        exact ih (addToGroups gs g ⟨src ++ [n], n, c.size, g⟩)

theorem addToGroups_names (g : Name) (f : SourceFile) :
    ∀ gs : List FileGroup,
      (addToGroups gs g f).map (fun x => x.name) =
        if g ∈ gs.map (fun x => x.name) then gs.map (fun x => x.name)
        else gs.map (fun x => x.name) ++ [g] := by
  intro gs
  induction gs with
  | nil => simp [addToGroups]
  | cons fg rest ih =>
    rw [addToGroups]
    by_cases h : fg.name = g
    · rw [if_pos h, List.map_cons, List.map_cons]
      have hmem : g ∈ fg.name :: rest.map (fun x => x.name) := by
        rw [h]; exact List.mem_cons_self _ _
      rw [if_pos hmem]
    · rw [if_neg h, List.map_cons, List.map_cons, ih]
      by_cases h2 : g ∈ rest.map (fun x => x.name)
      · have hmem : g ∈ fg.name :: rest.map (fun x => x.name) :=
          List.mem_cons_of_mem _ h2
        rw [if_pos h2, if_pos hmem]
      · have hmem : g ∉ fg.name :: rest.map (fun x => x.name) := by
          intro hc
          rcases List.mem_cons.mp hc with hc | hc
          · exact h hc.symm
          · exact h2 hc
        rw [if_neg h2, if_neg hmem, List.cons_append]

/-- Lookup of a group by identifier, mirroring the dict access in the scan. -/
def findGroup (gs : List FileGroup) (n : Name) : Option FileGroup :=
  gs.find? (fun fg => fg.name = n)

theorem findGroup_name {gs : List FileGroup} {q : Name} {fg : FileGroup}
    (h : findGroup gs q = some fg) : fg.name = q := by
  have := List.find?_some h
  simpa using this

theorem findGroup_of_mem :
    ∀ {gs : List FileGroup}, ((gs.map (fun x => x.name)).Nodup) →
      ∀ {g : FileGroup}, g ∈ gs → findGroup gs g.name = some g := by
  intro gs
  induction gs with
  | nil => intro _ g h; exact absurd h (by simp)
  | cons fg rest ih =>
    intro hnd g h
    rw [List.map_cons, List.nodup_cons] at hnd
    rcases List.mem_cons.mp h with h1 | h1
    · subst h1
      rw [findGroup, List.find?_cons_of_pos _ (by simp)]
    · have hne : ¬ fg.name = g.name := by
        intro hc
        exact hnd.1 (hc ▸ List.mem_map.mpr ⟨g, h1, rfl⟩)
      rw [findGroup, List.find?_cons_of_neg _ (by simpa using hne)]
      exact ih hnd.2 h1

theorem findGroup_addToGroups (g : Name) (f : SourceFile) (q : Name) :
    ∀ gs, findGroup (addToGroups gs g f) q =
      if q = g then
        match findGroup gs g with
        | some fg => some ⟨g, fg.files ++ [f]⟩
        | none => some ⟨g, [f]⟩
      else findGroup gs q := by
  intro gs
  induction gs with
  | nil =>
    by_cases h : q = g
    · rw [if_pos h]
      rw [addToGroups, findGroup, List.find?_cons_of_pos _ (by simp [h])]
      simp [findGroup]
    · rw [if_neg h]
      rw [addToGroups, findGroup]
      rw [List.find?_cons_of_neg _
        (by simp only [decide_eq_true_eq]; exact fun hh => h hh.symm)]
      simp [findGroup]
  | cons fg rest ih =>
    rw [addToGroups]
    by_cases h : fg.name = g
    · rw [if_pos h]
      by_cases hq : q = g
      · rw [if_pos hq, findGroup, List.find?_cons_of_pos _ (by simp [h, hq])]
        have : findGroup (fg :: rest) g = some fg := by
          rw [findGroup, List.find?_cons_of_pos _ (by simp [h])]
        rw [this, h]
      · rw [if_neg hq]
        have h1 : findGroup (⟨fg.name, fg.files ++ [f]⟩ :: rest) q = findGroup rest q := by
          rw [findGroup, List.find?_cons_of_neg _
            (by simp only [decide_eq_true_eq]; rw [h]; exact fun hh => hq hh.symm)]
          rfl
        have h2 : findGroup (fg :: rest) q = findGroup rest q := by
          rw [findGroup, List.find?_cons_of_neg _
            (by simp only [decide_eq_true_eq]; rw [h]; exact fun hh => hq hh.symm)]
          rfl
        rw [h1, h2]
    · rw [if_neg h]
      by_cases h2 : fg.name = q
      · have hq : ¬ q = g := by rw [← h2]; exact fun hh => h hh
        rw [if_neg hq]
        have e1 : findGroup (fg :: addToGroups rest g f) q = some fg := by
          rw [findGroup, List.find?_cons_of_pos _ (by simp [h2])]
        have e2 : findGroup (fg :: rest) q = some fg := by
          rw [findGroup, List.find?_cons_of_pos _ (by simp [h2])]
        rw [e1, e2]
      · have e1 : findGroup (fg :: addToGroups rest g f) q =
            findGroup (addToGroups rest g f) q := by
          rw [findGroup, List.find?_cons_of_neg _ (by simpa using h2)]
          rfl
        have e2 : findGroup (fg :: rest) q = findGroup rest q := by
          rw [findGroup, List.find?_cons_of_neg _ (by simpa using h2)]
          rfl
        have e3 : findGroup (fg :: rest) g = findGroup rest g := by
          rw [findGroup, List.find?_cons_of_neg _ (by simpa using h)]
          rfl
        rw [e1, ih, e2, e3]

theorem foldl_groupStep_names :
    ∀ (L : List (Name × SourceFile)) (gs : List FileGroup),
      ((L.foldl groupStep gs).map (fun x => x.name)) =
        firstSeen (L.map (fun x => x.1)) (gs.map (fun x => x.name)) := by
  intro L
  induction L with
  | nil => intro gs; rfl
  | cons gf rest ih =>
    intro gs
    rw [List.foldl_cons, List.map_cons, firstSeen, ih, groupStep, addToGroups_names]
    by_cases h : gf.1 ∈ gs.map (fun x => x.name)
    · rw [if_pos h, if_pos h]
    · rw [if_neg h, if_neg h]

theorem firstSeen_nodup : ∀ (L acc : List Name), acc.Nodup → (firstSeen L acc).Nodup := by
  intro L
  induction L with
  | nil => intro acc h; exact h
  | cons n rest ih =>
    intro acc h
    rw [firstSeen]
    by_cases hm : n ∈ acc
    · rw [if_pos hm]; exact ih acc h
    · rw [if_neg hm]
      apply ih
      rw [List.nodup_append]
      refine ⟨h, List.nodup_singleton n, ?_⟩
      intro x hx hx2
      rw [List.mem_singleton] at hx2
      subst hx2
      exact hm hx

theorem foldl_groupStep_findGroup :
    ∀ (L : List (Name × SourceFile)) (gs : List FileGroup) (q : Name),
      findGroup (L.foldl groupStep gs) q =
        match findGroup gs q with
        | some fg =>
          some ⟨q, fg.files ++ (L.filter (fun x => x.1 = q)).map (fun x => x.2)⟩
        | none =>
          if (L.filter (fun x => x.1 = q)).isEmpty then none
          else some ⟨q, (L.filter (fun x => x.1 = q)).map (fun x => x.2)⟩ := by
  intro L
  induction L with
  | nil =>
    intro gs q
    cases hf : findGroup gs q with
    | none => simp [hf]
    | some fg =>
      have hname := findGroup_name hf
      obtain ⟨n0, fl0⟩ := fg
      simp only at hname
      subst hname
      simp [hf]
  | cons gf rest ih =>
    intro gs q
    rw [List.foldl_cons, ih, List.filter_cons]
    by_cases h : gf.1 = q
    · rw [if_pos (decide_eq_true h)]
      rw [groupStep, findGroup_addToGroups, if_pos h.symm]
      cases hf : findGroup gs gf.1 with
      | some fg =>
        have hq : findGroup gs q = some fg := by rw [← h]; exact hf
        rw [hq]
        simp [List.append_assoc]
      | none =>
        have hq : findGroup gs q = none := by rw [← h]; exact hf
        rw [hq]
        simp
    · rw [if_neg (fun hc => h (of_decide_eq_true hc))]
      rw [groupStep, findGroup_addToGroups, if_neg (fun hh => h hh.symm)]

/-- **C7**.  scan_and_group returns groups in order of first appearance of
each identifier during the scan; each group's files are exactly the matching
direct regular-file entries with that identifier, appended in scan order;
non-matching files are excluded and subdirectory entries are skipped, never
descended into (every member arises from a direct child of the scanned
directory). -/
theorem c7_scan_first_seen_grouping (fs : FS) (src : FPath) (p : RegularExpression Char) :
    ((scan_and_group fs src p).map (fun g => g.name) =
      firstSeen ((matchedPairs p src (fs.iterdir src)).map (fun x => x.1)) []) ∧
    ((scan_and_group fs src p).map (fun g => g.name)).Nodup ∧
    (∀ g ∈ scan_and_group fs src p,
      g.files =
        ((matchedPairs p src (fs.iterdir src)).filter (fun x => x.1 = g.name)).map
          (fun x => x.2)) ∧
    (∀ g ∈ scan_and_group fs src p, ∀ f ∈ g.files,
      f.group = g.name ∧ f.path = src ++ [f.name] ∧
        ∃ c, (f.name, Entry.file c) ∈ fs.iterdir src ∧
          extract_group f.name p = some g.name ∧ f.size = c.size) := by
  have hscan : scan_and_group fs src p =
      (matchedPairs p src (fs.iterdir src)).foldl groupStep [] := by
    rw [scan_and_group, scanList_eq_foldl]
  have hnames : (scan_and_group fs src p).map (fun g => g.name) =
      firstSeen ((matchedPairs p src (fs.iterdir src)).map (fun x => x.1)) [] := by
    rw [hscan, foldl_groupStep_names]
    rfl
  have hnd : ((scan_and_group fs src p).map (fun g => g.name)).Nodup := by
    rw [hnames]
    exact firstSeen_nodup _ [] List.nodup_nil
  have hfiles : ∀ g ∈ scan_and_group fs src p,
      g.files =
        ((matchedPairs p src (fs.iterdir src)).filter (fun x => x.1 = g.name)).map
          (fun x => x.2) := by
    intro g hg
    obtain ⟨gname, gfiles⟩ := g
    have hfind : findGroup (scan_and_group fs src p) gname = some ⟨gname, gfiles⟩ :=
      findGroup_of_mem hnd hg
    rw [hscan, foldl_groupStep_findGroup] at hfind
    simp only [findGroup, List.find?_nil] at hfind
    split at hfind
    · exact absurd hfind (by simp)
    · simp only [Option.some.injEq, FileGroup.mk.injEq] at hfind
      exact hfind.2.symm
  refine ⟨hnames, hnd, hfiles, ?_⟩
  intro g hg f hf
  rw [hfiles g hg] at hf
  obtain ⟨x, hx, hxf⟩ := List.mem_map.mp hf
  obtain ⟨hx1, hx2⟩ := List.mem_filter.mp hx
  have hx2' : x.1 = g.name := of_decide_eq_true hx2
  rw [matchedPairs] at hx1
  obtain ⟨ne, hne, hfn⟩ := List.mem_filterMap.mp hx1
  obtain ⟨n, e⟩ := ne
  cases e with
  | dir => exact absurd hfn (by simp)
  | file c =>
    cases hg2 : extract_group n p with
    | none => simp [hg2] at hfn
    | some gid =>
      simp only [hg2] at hfn
      simp only [Option.some.injEq] at hfn
      subst hfn
      simp only at hx2'
      subst hx2'
      simp only at hxf
      rw [← hxf]
      refine ⟨rfl, rfl, c, ?_, ?_, rfl⟩
      · exact hne
      · exact hg2

def c7fs : FS :=
  ⟨[([['s']], .dir), ([['s'], ['a', 'x']], .file (.raw [1])),
    ([['s'], ['d']], .dir), ([['s'], ['b']], .file (.raw [2, 3])),
    ([['s'], ['a', 'y']], .file (.raw [4]))], []⟩

/-- Witness for C7 at a concrete listing with one subdirectory, one
non-matching file, and two files matching the pattern "a" under one group. -/
theorem c7_witness :
    ((scan_and_group c7fs [['s']] (RegularExpression.char 'a')).map (fun g => g.name) =
      firstSeen ((matchedPairs (RegularExpression.char 'a') [['s']]
        (c7fs.iterdir [['s']])).map (fun x => x.1)) []) ∧
    (⟨['a'], [⟨[['s'], ['a', 'x']], ['a', 'x'], 1, ['a']⟩,
              ⟨[['s'], ['a', 'y']], ['a', 'y'], 1, ['a']⟩]⟩ : FileGroup).files =
      ((matchedPairs (RegularExpression.char 'a') [['s']]
        (c7fs.iterdir [['s']])).filter (fun x => x.1 =
          (⟨['a'], [⟨[['s'], ['a', 'x']], ['a', 'x'], 1, ['a']⟩,
                    ⟨[['s'], ['a', 'y']], ['a', 'y'], 1, ['a']⟩]⟩ : FileGroup).name)).map
        (fun x => x.2) :=
  ⟨(c7_scan_first_seen_grouping c7fs [['s']] (RegularExpression.char 'a')).1,
   (c7_scan_first_seen_grouping c7fs [['s']] (RegularExpression.char 'a')).2.2.1 _
     (by decide)⟩

/-! Error-path behavior of the organizing loop. -/

theorem copy_failure_state (fs : FS) (s t : FPath)
    (h : (copy_file_with_metadata fs s t).1 = false) :
    (copy_file_with_metadata fs s t).2 = fs := by
  cases hg : fs.getFile s with
  | none => simp [copy_file_with_metadata, hg]
  | some c =>
    by_cases hw : fs.writeOk t = true
    · simp [copy_file_with_metadata, hg, hw] at h
    · simp [copy_file_with_metadata, hg, hw]

/-- **C1 (amended)**.  A per-file copy failure is not recorded-and-skipped:
the boolean returned by copy_file_with_metadata is ignored, the subsequent
verification finds no target and fails, and the entire run aborts (the
remaining files of the group are never processed). -/
theorem c1_amended_copy_failure_aborts (a : Args) (groupFolder : FPath) (fs : FS)
    (st : Stats) (sf : SourceFile) (rest : List SourceFile)
    (hdry : a.dry_run = false)
    (hmerge : fs.existsPath (groupFolder ++ [sf.name]) = false)
    (hcopy : (copy_file_with_metadata fs sf.path (groupFolder ++ [sf.name])).1 = false) :
    processFile a groupFolder fs st sf = .aborted fs ∧
    processFiles a groupFolder (sf :: rest) fs st = .aborted fs := by
  have hstate := copy_failure_state _ _ _ hcopy
  have hvc : verify_copy fs sf.path (groupFolder ++ [sf.name]) = .ok false := by
    rw [verify_copy_eq]
    simp [hmerge]
  have hpf : processFile a groupFolder fs st sf = .aborted fs := by
    simp [processFile, handle_merge, hmerge, hdry, hstate, hvc]
  exact ⟨hpf, by simp only [processFiles, hpf]⟩

def exDenyFS : FS :=
  ⟨[([['s']], .dir), ([['s'], ['a']], .file (.raw [1, 2])),
    ([['s'], ['b', 'a']], .file (.raw [3]))], [[['o'], ['a'], ['a']]]⟩

def exArgs : Args :=
  ⟨[['s']], ['a'], some (RegularExpression.char 'a'), [['o']], false, false, false⟩

def exMidFS : FS :=
  (create_folder (setup_logging exDenyFS [['o']]) [['o'], ['a']]).getD exDenyFS

/-- Counterexample to **C1** as stated: the first file's copy fails with a
permission error (copy_file_with_metadata returns false, no verification of a
completed copy is involved), yet the run aborts with exit code 1 instead of
continuing — the second file of the group is never copied. -/
theorem c1_counterexample :
    (copy_file_with_metadata exMidFS [['s'], ['a']] [['o'], ['a'], ['a']]).1 = false ∧
    (cliMain exArgs exDenyFS).1 = 1 ∧
    (cliMain exArgs exDenyFS).2.1.existsPath [['o'], ['a'], ['b', 'a']] = false ∧
    (cliMain exArgs exDenyFS).2.2.copied = 0 := by
  decide

/-- Witness for the amended C1 at the state reached just before the failing
copy of the concrete run. -/
theorem c1_witness :
    processFile exArgs [['o'], ['a']] exMidFS ⟨0, 0, 0⟩
        ⟨[['s'], ['a']], ['a'], 2, ['a']⟩ = .aborted exMidFS ∧
    processFiles exArgs [['o'], ['a']]
        [⟨[['s'], ['a']], ['a'], 2, ['a']⟩, ⟨[['s'], ['b', 'a']], ['b', 'a'], 1, ['a']⟩]
        exMidFS ⟨0, 0, 0⟩ = .aborted exMidFS :=
  c1_amended_copy_failure_aborts exArgs [['o'], ['a']] exMidFS ⟨0, 0, 0⟩
    ⟨[['s'], ['a']], ['a'], 2, ['a']⟩ [⟨[['s'], ['b', 'a']], ['b', 'a'], 1, ['a']⟩]
    (by decide) (by decide) (by decide)

/-- Characterization of cliMain by cases on the validation outcomes. -/
theorem cliMain_eq (a : Args) (fs : FS) :
    cliMain a fs =
      if (validate_arguments a).isSome = true then (1, fs, ⟨0, 0, 0⟩)
      else if fs.existsPath a.source = false then (1, fs, ⟨0, 0, 0⟩)
      else if fs.isDir a.source = false then (1, fs, ⟨0, 0, 0⟩)
      else
        match validate_pattern a with
        | .error _ => (1, fs, ⟨0, 0, 0⟩)
        | .ok p =>
          if (scan_and_group (setup_logging fs a.output) a.source p).isEmpty then
            (0, setup_logging fs a.output, ⟨0, 0, 0⟩)
          else
            match processGroups a (scan_and_group (setup_logging fs a.output) a.source p)
                (setup_logging fs a.output) ⟨0, 0, 0⟩ with
            | .done fs2 st => (0, fs2, st)
            | .aborted fs2 => (1, fs2, ⟨0, 0, 0⟩) := by
  rw [cliMain]
  by_cases v1 : (validate_arguments a).isSome = true
  · rw [if_pos v1, if_pos v1]
  · rw [if_neg v1, if_neg v1]
    cases v2 : fs.existsPath a.source with
    | false => simp
    | true =>
      cases v3 : fs.isDir a.source with
      | false => simp
      | true => simp

/-- **C2 (amended)**.  Validation errors (incompatible flags, missing or
non-directory source, bad pattern — all reported before any mutation) exit
with code 1, the same exit code used for fatal run-time errors such as a
copy-verification abort; only success is signalled distinctly (code 0). -/
theorem c2_amended_same_exit_code (a : Args) (fs : FS) :
    ((validate_arguments a).isSome = true → cliMain a fs = (1, fs, ⟨0, 0, 0⟩)) ∧
    (validate_arguments a = none → fs.existsPath a.source = false →
      cliMain a fs = (1, fs, ⟨0, 0, 0⟩)) ∧
    (∀ p fs2, validate_arguments a = none → fs.existsPath a.source = true →
      fs.isDir a.source = true → validate_pattern a = .ok p →
      (scan_and_group (setup_logging fs a.output) a.source p).isEmpty = false →
      processGroups a (scan_and_group (setup_logging fs a.output) a.source p)
          (setup_logging fs a.output) ⟨0, 0, 0⟩ = .aborted fs2 →
      cliMain a fs = (1, fs2, ⟨0, 0, 0⟩)) := by
  refine ⟨?_, ?_, ?_⟩
  · intro h
    rw [cliMain_eq, if_pos h]
  · intro h1 h2
    rw [cliMain_eq, if_neg (by rw [h1]; simp), if_pos h2]
  · intro p fs2 h1 h2 h3 h4 h5 h6
    rw [cliMain_eq, if_neg (by rw [h1]; simp), if_neg (by rw [h2]; simp),
      if_neg (by rw [h3]; simp)]
    simp only [h4, h5, h6]
    simp

def exBadFlagsArgs : Args :=
  ⟨[['s']], ['a'], some (RegularExpression.char 'a'), [['o']], true, true, false⟩

def exAbortFS : FS := (cliMain exArgs exDenyFS).2.1

/-- Counterexample to **C2** as stated: an incompatible-flag validation error
and a fatal copy-verification abort exit with the same code 1 — the code does
not give validation errors exit signaling distinct from fatal errors. -/
theorem c2_counterexample :
    (validate_arguments exBadFlagsArgs).isSome = true ∧
    (cliMain exBadFlagsArgs exDenyFS).1 = 1 ∧
    validate_arguments exArgs = none ∧
    exDenyFS.existsPath [['s']] = true ∧
    exDenyFS.isDir [['s']] = true ∧
    exArgs.patternCompiled.isSome = true ∧
    (cliMain exArgs exDenyFS).1 = 1 := by
  decide

/-- Witness for the amended C2 at a flag-validation error and at a fatal
copy-verification abort. -/
theorem c2_witness :
    cliMain exBadFlagsArgs exDenyFS = (1, exDenyFS, ⟨0, 0, 0⟩) ∧
    cliMain exArgs exDenyFS = (1, exAbortFS, ⟨0, 0, 0⟩) :=
  ⟨(c2_amended_same_exit_code exBadFlagsArgs exDenyFS).1 (by decide),
   (c2_amended_same_exit_code exArgs exDenyFS).2.2 (RegularExpression.char 'a') exAbortFS
     (by decide) (by decide) (by decide) (by rfl) (by decide) (by decide)⟩

/-! Dry-run behavior: the organizing loop never touches the filesystem. -/

theorem processFile_dry (a : Args) (gf : FPath) (fs : FS) (st : Stats)
    (sf : SourceFile) (hdry : a.dry_run = true) :
    ∃ st', processFile a gf fs st sf = .done fs st' := by
  by_cases h : fs.existsPath (gf ++ [sf.name]) = true
  · exact ⟨_, processFile_skip_of_exists a gf fs st sf h⟩
  · have h' : fs.existsPath (gf ++ [sf.name]) = false := by
      cases hb : fs.existsPath (gf ++ [sf.name])
      · rfl
      · exact absurd hb h
    refine ⟨st, ?_⟩
    simp [processFile, handle_merge, h', hdry]

theorem processFiles_dry (a : Args) (gf : FPath) (hdry : a.dry_run = true) :
    ∀ (files : List SourceFile) (fs : FS) (st : Stats),
      ∃ st', processFiles a gf files fs st = .done fs st' := by
  intro files
  induction files with
  | nil => intro fs st; exact ⟨st, rfl⟩
  | cons sf rest ih =>
    intro fs st
    obtain ⟨st1, h1⟩ := processFile_dry a gf fs st sf hdry
    obtain ⟨st2, h2⟩ := ih fs st1
    refine ⟨st2, ?_⟩
    simp only [processFiles, h1]
    exact h2

theorem processGroup_dry (a : Args) (fs : FS) (st : Stats) (g : FileGroup)
    (hdry : a.dry_run = true) :
    ∃ st', processGroup a fs st g = .done fs st' := by
  obtain ⟨st', h⟩ := processFiles_dry a (a.output ++ [g.name]) hdry g.files fs st
  refine ⟨st', ?_⟩
  simp [processGroup, hdry, h]

theorem processGroups_dry (a : Args) (hdry : a.dry_run = true) :
    ∀ (groups : List FileGroup) (fs : FS) (st : Stats),
      ∃ st', processGroups a groups fs st = .done fs st' := by
  intro groups
  induction groups with
  | nil => intro fs st; exact ⟨st, rfl⟩
  | cons g rest ih =>
    intro fs st
    obtain ⟨st1, h1⟩ := processGroup_dry a fs st g hdry
    obtain ⟨st2, h2⟩ := ih fs st1
    refine ⟨st2, ?_⟩
    simp only [processGroups, h1]
    exact h2

/-! Frame lemmas for directory creation and logging setup. -/

theorem mkdirOne_lookup {fs fs' : FS} {p : FPath} (h : FS.mkdirOne fs p = some fs')
    {q : FPath} (hq : q ≠ p) : fs'.lookup q = fs.lookup q := by
  rw [FS.mkdirOne] at h
  cases hl : fs.lookup p with
  | some e =>
    rw [hl] at h
    cases e with
    | dir =>
      simp only [Option.some.injEq] at h
      rw [← h]
    | file c => exact absurd h (by simp)
  | none =>
    rw [hl] at h
    by_cases hd : p ∈ fs.denied
    · rw [if_pos hd] at h; exact absurd h (by simp)
    · rw [if_neg hd] at h
      simp only [Option.some.injEq] at h
      rw [← h, FS.lookup_setEntry, if_neg hq]

theorem foldlM_mkdirOne_lookup :
    ∀ (l : List FPath) (fs fs' : FS),
      l.foldlM FS.mkdirOne fs = some fs' →
      ∀ q, q ∉ l → fs'.lookup q = fs.lookup q := by
  intro l
  induction l with
  | nil =>
    intro fs fs' h q _
    simp only [List.foldlM_nil] at h
    cases h
    rfl
  | cons p rest ih =>
    intro fs fs' h q hq
    rw [List.foldlM_cons] at h
    cases hm : FS.mkdirOne fs p with
    | none => rw [hm] at h; exact absurd h (by simp)
    | some fs1 =>
      rw [hm] at h
      have hq1 : q ∉ rest := fun hh => hq (List.mem_cons_of_mem _ hh)
      have hqp : q ≠ p := fun hh => hq (hh ▸ List.mem_cons_self _ _)
      rw [ih fs1 fs' h q hq1, mkdirOne_lookup hm hqp]

theorem create_folder_lookup {fs fs' : FS} {p : FPath}
    (h : create_folder fs p = some fs') :
    ∀ q, q ∉ pathPrefixes p → fs'.lookup q = fs.lookup q := by
  intro q hq
  exact foldlM_mkdirOne_lookup _ fs fs' h q hq

theorem setup_logging_lookup (fs : FS) (out : FPath) :
    ∀ q, q ∉ pathPrefixes out → q ≠ logPath out →
      (setup_logging fs out).lookup q = fs.lookup q := by
  intro q h1 h2
  rw [setup_logging]
  cases hc : create_folder fs out with
  | none => rfl
  | some fs1 =>
    have hl1 := create_folder_lookup hc q h1
    show (match fs1.lookup (logPath out) with
      | some _ => fs1
      | none =>
        if logPath out ∈ fs1.denied then fs1
        else fs1.setEntry (logPath out) (.file (.raw []))).lookup q = fs.lookup q
    cases hlog : fs1.lookup (logPath out) with
    | some e => exact hl1
    | none =>
      by_cases hd : logPath out ∈ fs1.denied
      · rw [if_pos hd]; exact hl1
      · rw [if_neg hd]
        rw [FS.lookup_setEntry, if_neg h2]
        exact hl1

/-- **C3 (amended)**.  In preview (dry-run) mode the only filesystem mutation
is logging setup: the output directory chain may be created and the log file
opened; every other path — in particular any group folder, copied file, or
archive — is left exactly as it was. -/
theorem c3_amended_dry_run_touches_only_logging (a : Args) (fs : FS)
    (hdry : a.dry_run = true) :
    ∀ q : FPath, q ∉ pathPrefixes a.output → q ≠ logPath a.output →
      (cliMain a fs).2.1.lookup q = fs.lookup q := by
  intro q h1 h2
  rw [cliMain_eq]
  by_cases v1 : (validate_arguments a).isSome = true
  · rw [if_pos v1]
  · rw [if_neg v1]
    by_cases v2 : fs.existsPath a.source = false
    · rw [if_pos v2]
    · rw [if_neg v2]
      by_cases v3 : fs.isDir a.source = false
      · rw [if_pos v3]
      · rw [if_neg v3]
        cases hvp : validate_pattern a with
        | error e => exact rfl
        | ok p =>
          have hsetup := setup_logging_lookup fs a.output q h1 h2
          by_cases hge :
              (scan_and_group (setup_logging fs a.output) a.source p).isEmpty = true
          · simp only [hge, if_true]
            exact hsetup
          · simp only [hge]
            obtain ⟨st', hdone⟩ := processGroups_dry a hdry
              (scan_and_group (setup_logging fs a.output) a.source p)
              (setup_logging fs a.output) ⟨0, 0, 0⟩
            simp only [hdone, if_false]
            exact hsetup

def c3fs : FS :=
  ⟨[([['s']], .dir), ([['s'], ['a']], .file (.raw [1]))], []⟩

def c3args : Args :=
  ⟨[['s']], ['a'], some (RegularExpression.char 'a'), [['o']], true, false, false⟩

/-- Counterexample to **C3** as stated: a dry run exits successfully but the
filesystem state after the run differs from the state before it — the output
directory and the log file have been created. -/
theorem c3_counterexample :
    (cliMain c3args c3fs).1 = 0 ∧
    ((cliMain c3args c3fs).2.1 = c3fs → False) ∧
    (cliMain c3args c3fs).2.1.lookup (logPath [['o']]) = some (.file (.raw [])) ∧
    c3fs.lookup (logPath [['o']]) = none := by
  decide

/-- Witness for the amended C3: a path outside logging setup (here, the
source file itself) is untouched by a dry run. -/
theorem c3_witness :
    (cliMain c3args c3fs).2.1.lookup [['s'], ['a']] = c3fs.lookup [['s'], ['a']] :=
  c3_amended_dry_run_touches_only_logging c3args c3fs (by decide) [['s'], ['a']]
    (by decide) (by decide)

/-! Path decomposition helpers for the idempotence argument. -/

theorem mem_pathPrefixes {p k : FPath} :
    k ∈ pathPrefixes p ↔ ∃ i, i < p.length ∧ k = p.take (i + 1) := by
  rw [pathPrefixes]
  constructor
  · intro h
    obtain ⟨i, hi, hk⟩ := List.mem_map.mp h
    exact ⟨i, List.mem_range.mp hi, hk.symm⟩
  · rintro ⟨i, hi, hk⟩
    exact List.mem_map.mpr ⟨i, List.mem_range.mpr hi, hk.symm⟩

theorem take_append_small {l₁ l₂ : FPath} {n : Nat} (h : n ≤ l₁.length) :
    (l₁ ++ l₂).take n = l₁.take n := by
  rw [List.take_append_eq_append_take]
  have : n - l₁.length = 0 := by omega
  rw [this, List.take_zero, List.append_nil]

theorem append_singleton_inj {l₁ l₂ : FPath} {x y : Name}
    (h : l₁ ++ [x] = l₂ ++ [y]) : l₁ = l₂ ∧ x = y := by
  have hlen : l₁.length = l₂.length := by
    have := congrArg List.length h
    simp only [List.length_append, List.length_singleton] at this
    omega
  constructor
  · have := congrArg (fun l => List.take l₁.length l) h
    simp only at this
    rw [List.take_left] at this
    rw [this, hlen, List.take_left]
  · have := congrArg (fun l => List.drop l₁.length l) h
    simp only at this
    rw [List.drop_left] at this
    rw [hlen, List.drop_left] at this
    exact ((List.cons.injEq x [] y []).mp this).1

/-- Prefixes of a one-component extension: the prefixes of the base plus the
extended path itself. -/
theorem pathPrefixes_append_singleton {out : FPath} {g : Name} {k : FPath}
    (h : k ∈ pathPrefixes (out ++ [g])) : k ∈ pathPrefixes out ∨ k = out ++ [g] := by
  obtain ⟨i, hi, hk⟩ := mem_pathPrefixes.mp h
  rw [List.length_append, List.length_singleton] at hi
  by_cases hlt : i + 1 ≤ out.length
  · left
    rw [mem_pathPrefixes]
    refine ⟨i, by omega, ?_⟩
    rw [hk, take_append_small hlt]
  · right
    have : i + 1 = out.length + 1 := by omega
    rw [hk, this, List.take_append_eq_append_take, List.take_of_length_le (by omega)]
    have h2 : out.length + 1 - out.length = 1 := by omega
    rw [h2]
    rfl

/-- Keys touched by a run: proper prefixes of the output directory (created
as parents) and paths inside the output subtree. -/
def underOutput (out q : FPath) : Prop :=
  q ∈ pathPrefixes out ∨ q.take out.length = out

theorem underOutput_append (out : FPath) (l : FPath) :
    underOutput out (out ++ l) := by
  right
  exact List.take_left out l

theorem underOutput_of_pathPrefixes_append {out : FPath} {g : Name} {k : FPath}
    (h : k ∈ pathPrefixes (out ++ [g])) : underOutput out k := by
  rcases pathPrefixes_append_singleton h with h | h
  · exact Or.inl h
  · rw [h]; exact underOutput_append out [g]

/-- Under the non-nesting hypotheses, no direct child of the source directory
is ever touched by a run. -/
theorem source_child_not_under {src out : FPath}
    (hd1 : src.take out.length ≠ out) (hd2 : out.take src.length ≠ src) :
    ∀ n : Name, ¬ underOutput out (src ++ [n]) := by
  intro n h
  rcases h with h | h
  · obtain ⟨i, hi, hk⟩ := mem_pathPrefixes.mp h
    have hlen : src.length + 1 = i + 1 := by
      have := congrArg List.length hk
      rw [List.length_append, List.length_singleton, List.length_take] at this
      omega
    have hsrc : out.take src.length = src := by
      have := congrArg (fun l => List.take src.length l) hk
      simp only at this
      rw [List.take_left, List.take_take] at this
      have hmin : min src.length (i + 1) = src.length := by omega
      rw [hmin] at this
      exact this.symm
    exact hd2 hsrc
  · by_cases hle : out.length ≤ src.length
    · rw [take_append_small hle] at h
      exact hd1 h
    · rw [List.take_of_length_le
        (by rw [List.length_append, List.length_singleton]
            have := congrArg List.length h
            rw [List.length_take, List.length_append, List.length_singleton] at this
            omega)] at h
      apply hd2
      rw [← h, take_append_small (Nat.le_refl _), List.take_of_length_le (Nat.le_refl _)]

/-! Footprint of a run fragment: which keys it may write, which existing
files it may overwrite, and which facts it preserves. -/

theorem childEntry_eq_none {d : FPath} {pe : FPath × Entry}
    (h : ∀ n, pe.1 ≠ d ++ [n]) : childEntry d pe = none := by
  cases hce : childEntry d pe with
  | none => rfl
  | some ne' =>
    obtain ⟨n', e'⟩ := ne'
    exact absurd ((childEntry_eq_some_iff d pe n' e').mp hce).1 (h n')

theorem filterMap_childEntry_setKey (d k : FPath) (e : Entry)
    (h : ∀ n, k ≠ d ++ [n]) :
    ∀ l : List (FPath × Entry),
      (setKey k e l).filterMap (childEntry d) = l.filterMap (childEntry d) := by
  intro l
  induction l with
  | nil =>
    rw [setKey, List.filterMap_cons, @childEntry_eq_none d (k, e) h]
  | cons pe rest ih =>
    rw [setKey]
    by_cases hk : pe.1 = k
    · rw [if_pos hk]
      have h1 : childEntry d (k, e) = none := @childEntry_eq_none d (k, e) h
      have h2 : childEntry d pe = none := @childEntry_eq_none d pe (by rw [hk]; exact h)
      rw [List.filterMap_cons, List.filterMap_cons, h1, h2]
    · rw [if_neg hk, List.filterMap_cons, List.filterMap_cons, ih]

theorem iterdir_setEntry_of_not_child (fs : FS) (d k : FPath) (e : Entry)
    (h : ∀ n, k ≠ d ++ [n]) : (fs.setEntry k e).iterdir d = fs.iterdir d :=
  filterMap_childEntry_setKey d k e h fs.entries

/-- Footprint: `fs'` arises from `fs` by writes at keys in `K` only, where
only keys in `Kz` may overwrite an existing regular file. -/
structure Footprint (K Kz : FPath → Prop) (fs fs' : FS) : Prop where
  lookup_frame : ∀ q, ¬ K q → fs'.lookup q = fs.lookup q
  iterdir_frame : ∀ d, (∀ n, ¬ K (d ++ [n])) → fs'.iterdir d = fs.iterdir d
  file_keep : ∀ q c, ¬ Kz q → fs.lookup q = some (.file c) →
    fs'.lookup q = some (.file c)
  denied_eq : fs'.denied = fs.denied
  wf_pres : fs.wf → fs'.wf
  exists_mono : ∀ q, fs.existsPath q = true → fs'.existsPath q = true
  isDir_mono : ∀ q, fs.isDir q = true → fs'.isDir q = true

theorem Footprint.refl (K Kz : FPath → Prop) (fs : FS) : Footprint K Kz fs fs :=
  ⟨fun _ _ => rfl, fun _ _ => rfl, fun _ _ _ h => h, rfl, id, fun _ h => h, fun _ h => h⟩

theorem Footprint.trans {K Kz : FPath → Prop} {fs1 fs2 fs3 : FS}
    (h1 : Footprint K Kz fs1 fs2) (h2 : Footprint K Kz fs2 fs3) :
    Footprint K Kz fs1 fs3 := by
  refine ⟨?_, ?_, ?_, ?_, ?_, ?_, ?_⟩
  · intro q hq; rw [h2.lookup_frame q hq, h1.lookup_frame q hq]
  · intro d hd; rw [h2.iterdir_frame d hd, h1.iterdir_frame d hd]
  · intro q c hq hc; exact h2.file_keep q c hq (h1.file_keep q c hq hc)
  · rw [h2.denied_eq, h1.denied_eq]
  · exact fun h => h2.wf_pres (h1.wf_pres h)
  · exact fun q h => h2.exists_mono q (h1.exists_mono q h)
  · exact fun q h => h2.isDir_mono q (h1.isDir_mono q h)

theorem Footprint.weaken {K Kz K' Kz' : FPath → Prop} {fs fs' : FS}
    (hK : ∀ q, K q → K' q) (hKz : ∀ q, Kz q → Kz' q)
    (h : Footprint K Kz fs fs') : Footprint K' Kz' fs fs' := by
  refine ⟨?_, ?_, ?_, h.denied_eq, h.wf_pres, h.exists_mono, h.isDir_mono⟩
  · intro q hq; exact h.lookup_frame q (fun hh => hq (hK q hh))
  · intro d hd; exact h.iterdir_frame d (fun n => fun hh => hd n (hK _ hh))
  · intro q c hq; exact h.file_keep q c (fun hh => hq (hKz q hh))

/-- Writing a fresh key (any entry kind) has a singleton footprint with no
file overwrite. -/
theorem footprint_setEntry_fresh {K Kz : FPath → Prop} (fs : FS) (k : FPath)
    (e : Entry) (hK : K k) (hfresh : fs.lookup k = none) :
    Footprint K Kz fs (fs.setEntry k e) := by
  refine ⟨?_, ?_, ?_, rfl, FS.wf_setEntry fs k e, ?_, ?_⟩
  · intro q hq
    rw [FS.lookup_setEntry, if_neg (by intro hh; exact hq (hh.symm ▸ hK))]
  · intro d hd
    exact iterdir_setEntry_of_not_child fs d k e
      (fun n hh => hd n (hh ▸ hK))
  · intro q c _ hc
    rw [FS.lookup_setEntry, if_neg ?_]
    · exact hc
    · intro hh
      rw [hh, hfresh] at hc
      exact absurd hc (by simp)
  · intro q hq
    rw [FS.existsPath] at hq ⊢
    rw [FS.lookup_setEntry]
    by_cases hh : q = k
    · simp [hh]
    · rw [if_neg hh]; exact hq
  · intro q hq
    rw [FS.isDir_iff] at hq ⊢
    rw [FS.lookup_setEntry]
    by_cases hh : q = k
    · rw [hh, hfresh] at hq; exact absurd hq (by simp)
    · rw [if_neg hh]; exact hq

/-- Overwriting a non-directory key with a file: footprint at `k`, overwrite
allowance at `k`. -/
theorem footprint_setEntry_file {K Kz : FPath → Prop} (fs : FS) (k : FPath)
    (c : Content) (hK : K k) (hKz : Kz k) (hnd : ¬ fs.lookup k = some .dir) :
    Footprint K Kz fs (fs.setEntry k (.file c)) := by
  refine ⟨?_, ?_, ?_, rfl, FS.wf_setEntry fs k _, ?_, ?_⟩
  · intro q hq
    rw [FS.lookup_setEntry, if_neg (by intro hh; exact hq (hh.symm ▸ hK))]
  · intro d hd
    exact iterdir_setEntry_of_not_child fs d k _ (fun n hh => hd n (hh ▸ hK))
  · intro q c' hq hc
    rw [FS.lookup_setEntry, if_neg (by intro hh; exact hq (hh.symm ▸ hKz))]
    exact hc
  · intro q hq
    rw [FS.existsPath] at hq ⊢
    rw [FS.lookup_setEntry]
    by_cases hh : q = k
    · simp [hh]
    · rw [if_neg hh]; exact hq
  · intro q hq
    rw [FS.isDir_iff] at hq ⊢
    rw [FS.lookup_setEntry]
    by_cases hh : q = k
    · rw [hh] at hq; exact absurd hq hnd
    · rw [if_neg hh]; exact hq

/-! Directory creation: footprint, postcondition, and no-op form. -/

theorem footprint_mkdirOne {K Kz : FPath → Prop} {fs fs' : FS} {p : FPath}
    (h : FS.mkdirOne fs p = some fs') (hK : K p) : Footprint K Kz fs fs' := by
  rw [FS.mkdirOne] at h
  cases hl : fs.lookup p with
  | some e =>
    rw [hl] at h
    cases e with
    | dir =>
      simp only [Option.some.injEq] at h
      rw [← h]
      exact Footprint.refl K Kz fs
    | file c => exact absurd h (by simp)
  | none =>
    rw [hl] at h
    by_cases hd : p ∈ fs.denied
    · rw [if_pos hd] at h; exact absurd h (by simp)
    · rw [if_neg hd] at h
      simp only [Option.some.injEq] at h
      rw [← h]
      exact footprint_setEntry_fresh fs p .dir hK hl

theorem footprint_foldlM_mkdir {K Kz : FPath → Prop} :
    ∀ (l : List FPath) (fs fs' : FS), (∀ k ∈ l, K k) →
      l.foldlM FS.mkdirOne fs = some fs' → Footprint K Kz fs fs' := by
  intro l
  induction l with
  | nil =>
    intro fs fs' _ h
    simp only [List.foldlM_nil] at h
    cases h
    exact Footprint.refl K Kz fs
  | cons p rest ih =>
    intro fs fs' hk h
    rw [List.foldlM_cons] at h
    cases hm : FS.mkdirOne fs p with
    | none => rw [hm] at h; exact absurd h (by simp)
    | some fs1 =>
      rw [hm] at h
      exact (footprint_mkdirOne hm (hk p (List.mem_cons_self _ _))).trans
        (ih fs1 fs' (fun k hkk => hk k (List.mem_cons_of_mem _ hkk)) h)

theorem footprint_create_folder {K Kz : FPath → Prop} {fs fs' : FS} {p : FPath}
    (h : create_folder fs p = some fs') (hK : ∀ k ∈ pathPrefixes p, K k) :
    Footprint K Kz fs fs' :=
  footprint_foldlM_mkdir _ fs fs' hK h

theorem mkdirOne_isDir_self {fs fs' : FS} {p : FPath}
    (h : FS.mkdirOne fs p = some fs') : fs'.isDir p = true := by
  rw [FS.mkdirOne] at h
  cases hl : fs.lookup p with
  | some e =>
    rw [hl] at h
    cases e with
    | dir =>
      simp only [Option.some.injEq] at h
      rw [← h, FS.isDir_iff]
      exact hl
    | file c => exact absurd h (by simp)
  | none =>
    rw [hl] at h
    by_cases hd : p ∈ fs.denied
    · rw [if_pos hd] at h; exact absurd h (by simp)
    · rw [if_neg hd] at h
      simp only [Option.some.injEq] at h
      rw [← h, FS.isDir_iff, FS.lookup_setEntry]
      simp

theorem foldlM_mkdir_post : ∀ (l : List FPath) (fs fs' : FS),
    l.foldlM FS.mkdirOne fs = some fs' → ∀ k ∈ l, fs'.isDir k = true := by
  intro l
  induction l with
  | nil => intro fs fs' _ k hk; exact absurd hk (by simp)
  | cons p rest ih =>
    intro fs fs' h k hk
    rw [List.foldlM_cons] at h
    cases hm : FS.mkdirOne fs p with
    | none => rw [hm] at h; exact absurd h (by simp)
    | some fs1 =>
      rw [hm] at h
      rcases List.mem_cons.mp hk with h1 | h1
      · subst h1
        exact (@footprint_foldlM_mkdir (fun _ => True) (fun _ => True)
          rest fs1 fs' (fun _ _ => trivial) h).isDir_mono k (mkdirOne_isDir_self hm)
      · exact ih fs1 fs' h k h1

theorem create_folder_post {fs fs' : FS} {p : FPath}
    (h : create_folder fs p = some fs') : ∀ k ∈ pathPrefixes p, fs'.isDir k = true :=
  foldlM_mkdir_post _ fs fs' h

theorem mkdirOne_noop {fs : FS} {p : FPath} (h : fs.isDir p = true) :
    FS.mkdirOne fs p = some fs := by
  have h2 := (FS.isDir_iff fs p).mp h
  rw [FS.mkdirOne, h2]

theorem foldlM_mkdir_noop : ∀ (l : List FPath) (fs : FS),
    (∀ k ∈ l, fs.isDir k = true) → l.foldlM FS.mkdirOne fs = some fs := by
  intro l
  induction l with
  | nil => intro fs _; rfl
  | cons p rest ih =>
    intro fs h
    rw [List.foldlM_cons, mkdirOne_noop (h p (List.mem_cons_self _ _))]
    exact ih fs (fun k hk => h k (List.mem_cons_of_mem _ hk))

theorem create_folder_noop {fs : FS} {p : FPath}
    (h : ∀ k ∈ pathPrefixes p, fs.isDir k = true) : create_folder fs p = some fs :=
  foldlM_mkdir_noop _ fs h

theorem setKey_of_find_self : ∀ (l : List (FPath × Entry)) (p : FPath) (v : Entry),
    l.find? (fun pe => pe.1 = p) = some (p, v) → setKey p v l = l := by
  intro l
  induction l with
  | nil => intro p v h; exact absurd h (by simp)
  | cons pe rest ih =>
    intro p v h
    rw [setKey]
    by_cases hk : pe.1 = p
    · rw [if_pos hk]
      rw [List.find?_cons_of_pos _ (by simpa using hk)] at h
      simp only [Option.some.injEq] at h
      rw [← h]
    · rw [if_neg hk]
      rw [List.find?_cons_of_neg _ (by simpa using hk)] at h
      rw [ih p v h]

/-- Rewriting an entry with the value it already holds leaves the state
literally unchanged (the update is in place). -/
theorem setEntry_lookup_self_eq {fs : FS} {p : FPath} {v : Entry}
    (h : fs.lookup p = some v) : fs.setEntry p v = fs := by
  rw [FS.lookup] at h
  cases hf : fs.entries.find? (fun pe => pe.1 = p) with
  | none => rw [hf] at h; exact absurd h (by simp)
  | some pe =>
    rw [hf] at h
    simp only [Option.map_some', Option.some.injEq] at h
    have hp := List.find?_some hf
    simp only [decide_eq_true_eq] at hp
    have hpe : pe = (p, v) := by
      obtain ⟨a, b⟩ := pe
      simp only at hp h
      rw [hp, h]
    rw [hpe] at hf
    have hsk := setKey_of_find_self fs.entries p v hf
    rw [FS.setEntry]
    cases fs
    simp only at hsk ⊢
    rw [hsk]

theorem exists_of_isDir {fs : FS} {p : FPath} (h : fs.isDir p = true) :
    fs.existsPath p = true := by
  rw [FS.isDir_iff] at h
  rw [FS.existsPath, h]
  rfl

/-! Case analysis of the per-file step in a completed (non-aborted) run. -/

theorem lookup_eq_none_of_not_exists {fs : FS} {p : FPath}
    (h : fs.existsPath p = false) : fs.lookup p = none := by
  rw [FS.existsPath] at h
  cases hl : fs.lookup p with
  | none => rfl
  | some e => rw [hl] at h; exact absurd h (by simp)

theorem writeOk_iff {fs : FS} {p : FPath} :
    fs.writeOk p = true ↔
      ¬ p ∈ fs.denied ∧ fs.isDir p.dropLast = true ∧ ¬ fs.lookup p = some .dir := by
  rw [FS.writeOk]
  simp

theorem create_zip_ok {fs fs' : FS} {folder zipPath : FPath}
    (h : create_zip fs folder zipPath = .ok fs') :
    fs.existsPath folder = true ∧ fs.isDir folder = true ∧ fs.writeOk zipPath = true ∧
      fs' = fs.setEntry zipPath (.file (.archive (add_folder_to_zip fs folder))) := by
  rw [create_zip_eq] at h
  by_cases h1 : fs.existsPath folder = false
  · rw [if_pos h1] at h; exact absurd h (by simp)
  · rw [if_neg h1] at h
    by_cases h2 : fs.isDir folder = false
    · rw [if_pos h2] at h; exact absurd h (by simp)
    · rw [if_neg h2] at h
      by_cases h3 : fs.writeOk zipPath = false
      · rw [if_pos h3] at h; exact absurd h (by simp)
      · rw [if_neg h3] at h
        simp only [Except.ok.injEq] at h
        refine ⟨?_, ?_, ?_, h.symm⟩
        · cases hb : fs.existsPath folder
          · exact absurd hb h1
          · rfl
        · cases hb : fs.isDir folder
          · exact absurd hb h2
          · rfl
        · cases hb : fs.writeOk zipPath
          · exact absurd hb h3
          · rfl

theorem processFile_done {a : Args} {gf : FPath} {fs : FS} {st : Stats}
    {sf : SourceFile} {fs' : FS} {st' : Stats}
    (hdel : a.delete_originals = false)
    (h : processFile a gf fs st sf = .done fs' st') :
    (fs.existsPath (gf ++ [sf.name]) = true ∧ fs' = fs ∧
      st' = { st with skipped := st.skipped + 1 }) ∨
    (a.dry_run = true ∧ fs.existsPath (gf ++ [sf.name]) = false ∧ fs' = fs ∧ st' = st) ∨
    (a.dry_run = false ∧ fs.existsPath (gf ++ [sf.name]) = false ∧
      ∃ c, fs.getFile sf.path = some c ∧ fs.writeOk (gf ++ [sf.name]) = true ∧
        fs' = fs.setEntry (gf ++ [sf.name]) (.file c) ∧
        st' = { st with copied := st.copied + 1 }) := by
  by_cases hex : fs.existsPath (gf ++ [sf.name]) = true
  · left
    rw [processFile_skip_of_exists a gf fs st sf hex] at h
    simp only [StepRes.done.injEq] at h
    exact ⟨hex, h.1.symm, h.2.symm⟩
  · have hex' : fs.existsPath (gf ++ [sf.name]) = false := by
      cases hb : fs.existsPath (gf ++ [sf.name])
      · rfl
      · exact absurd hb hex
    cases hdry : a.dry_run with
    | true =>
      right; left
      have hmain : processFile a gf fs st sf = .done fs st := by
        simp [processFile, handle_merge, hex', hdry]
      rw [hmain] at h
      simp only [StepRes.done.injEq] at h
      exact ⟨rfl, hex', h.1.symm, h.2.symm⟩
    | false =>
      right; right
      refine ⟨rfl, hex', ?_⟩
      cases hg : fs.getFile sf.path with
      | none =>
        have hc2 : copy_file_with_metadata fs sf.path (gf ++ [sf.name]) = (false, fs) := by
          simp [copy_file_with_metadata, hg]
        have hvc : verify_copy fs sf.path (gf ++ [sf.name]) = .ok false := by
          rw [verify_copy_eq]
          simp [hex']
        have hmain : processFile a gf fs st sf = .aborted fs := by
          simp [processFile, handle_merge, hex', hdry, hc2, hvc]
        rw [hmain] at h
        exact absurd h (by simp)
      | some c =>
        by_cases hw : fs.writeOk (gf ++ [sf.name]) = true
        · have hc2 : copy_file_with_metadata fs sf.path (gf ++ [sf.name]) =
              (true, fs.setEntry (gf ++ [sf.name]) (.file c)) := by
            simp [copy_file_with_metadata, hg, hw]
          cases hvc : verify_copy (fs.setEntry (gf ++ [sf.name]) (.file c))
              sf.path (gf ++ [sf.name]) with
          | error e =>
            have hmain : processFile a gf fs st sf =
                .aborted (fs.setEntry (gf ++ [sf.name]) (.file c)) := by
              simp [processFile, handle_merge, hex', hdry, hc2, hvc]
            rw [hmain] at h
            exact absurd h (by simp)
          | ok b =>
            cases b with
            | false =>
              have hmain : processFile a gf fs st sf =
                  .aborted (fs.setEntry (gf ++ [sf.name]) (.file c)) := by
                simp [processFile, handle_merge, hex', hdry, hc2, hvc]
              rw [hmain] at h
              exact absurd h (by simp)
            | true =>
              have hmain : processFile a gf fs st sf =
                  .done (fs.setEntry (gf ++ [sf.name]) (.file c))
                    { st with copied := st.copied + 1 } := by
                simp [processFile, handle_merge, hex', hdry, hc2, hvc, hdel]
              rw [hmain] at h
              simp only [StepRes.done.injEq] at h
              exact ⟨c, rfl, hw, h.1.symm, h.2.symm⟩
        · have hw' : fs.writeOk (gf ++ [sf.name]) = false := by
            cases hb : fs.writeOk (gf ++ [sf.name])
            · rfl
            · exact absurd hb hw
          have hc2 : copy_file_with_metadata fs sf.path (gf ++ [sf.name]) = (false, fs) := by
            simp [copy_file_with_metadata, hg, hw']
          have hvc : verify_copy fs sf.path (gf ++ [sf.name]) = .ok false := by
            rw [verify_copy_eq]
            simp [hex']
          have hmain : processFile a gf fs st sf = .aborted fs := by
            simp [processFile, handle_merge, hex', hdry, hc2, hvc]
          rw [hmain] at h
          exact absurd h (by simp)

theorem footprint_processFile {K Kz : FPath → Prop} {a : Args} {gf : FPath}
    {fs : FS} {st : Stats} {sf : SourceFile} {fs' : FS} {st' : Stats}
    (hdel : a.delete_originals = false) (hK : K (gf ++ [sf.name]))
    (h : processFile a gf fs st sf = .done fs' st') : Footprint K Kz fs fs' := by
  rcases processFile_done hdel h with ⟨-, hfs, -⟩ | ⟨-, -, hfs, -⟩ |
    ⟨-, hex, c, -, -, hfs, -⟩
  · rw [hfs]; exact Footprint.refl K Kz fs
  · rw [hfs]; exact Footprint.refl K Kz fs
  · rw [hfs]
    exact footprint_setEntry_fresh fs _ _ hK (lookup_eq_none_of_not_exists hex)

/-! Per-group file loop: footprint, target postconditions, and counters. -/

theorem processFiles_done {Kz : FPath → Prop} {a : Args} {gf : FPath}
    (hdel : a.delete_originals = false) :
    ∀ (files : List SourceFile) (fs : FS) (st : Stats) (fs' : FS) (st' : Stats),
      processFiles a gf files fs st = .done fs' st' →
      Footprint (fun q => ∃ n, q = gf ++ [n]) Kz fs fs' ∧
      (a.dry_run = false →
        ∀ sf ∈ files, fs'.existsPath (gf ++ [sf.name]) = true) ∧
      (a.dry_run = false →
        st'.copied + st'.skipped = st.copied + st.skipped + files.length ∧
        st'.deleted = st.deleted) := by
  intro files
  induction files with
  | nil =>
    intro fs st fs' st' h
    simp only [processFiles, StepRes.done.injEq] at h
    obtain ⟨h1, h2⟩ := h
    subst h1; subst h2
    refine ⟨Footprint.refl _ _ fs, ?_, ?_⟩
    · intro _ sf hsf; exact absurd hsf (by simp)
    · intro _; simp
  | cons sf rest ih =>
    intro fs st fs' st' h
    rw [processFiles] at h
    cases hpf : processFile a gf fs st sf with
    | aborted fsx => rw [hpf] at h; exact absurd h (by simp)
    | done fsm stm =>
      rw [hpf] at h
      obtain ⟨ihf, ihpost, ihstats⟩ := ih fsm stm fs' st' h
      have stepf : Footprint (fun q => ∃ n, q = gf ++ [n]) Kz fs fsm :=
        footprint_processFile hdel ⟨sf.name, rfl⟩ hpf
      refine ⟨stepf.trans ihf, ?_, ?_⟩
      · intro hdry sf0 hsf0
        rcases List.mem_cons.mp hsf0 with h0 | h0
        · subst h0
          rcases processFile_done hdel hpf with ⟨hex, hfs, -⟩ | ⟨hd, -, -, -⟩ |
            ⟨-, -, c, -, -, hfs, -⟩
          · exact ihf.exists_mono _ (hfs ▸ hex)
          · rw [hdry] at hd; exact absurd hd (by simp)
          · apply ihf.exists_mono
            rw [hfs, FS.existsPath, FS.lookup_setEntry]
            simp
        · exact ihpost hdry sf0 h0
      · intro hdry
        obtain ⟨hs1, hs2⟩ := ihstats hdry
        rcases processFile_done hdel hpf with ⟨-, -, hst⟩ | ⟨hd, -, -, -⟩ |
          ⟨-, -, c, -, -, -, hst⟩
        · rw [hst] at hs1 hs2
          simp only [List.length_cons] at *
          constructor
          · omega
          · exact hs2
        · rw [hdry] at hd; exact absurd hd (by simp)
        · rw [hst] at hs1 hs2
          simp only [List.length_cons] at *
          constructor
          · omega
          · exact hs2

/-! Per-group step: footprint and postconditions of a completed group. -/

def zipPathOf (a : Args) (g : FileGroup) : FPath :=
  a.output ++ [zipFileName g.name]

/-- Keys a single group's processing may write: the folder chain, the copied
targets inside the folder, and the group's zip path. -/
def KGroup (a : Args) (g : FileGroup) (q : FPath) : Prop :=
  q ∈ pathPrefixes (a.output ++ [g.name]) ∨
    (∃ n, q = (a.output ++ [g.name]) ++ [n]) ∨ q = zipPathOf a g

theorem length_of_mem_pathPrefixes {p k : FPath} (h : k ∈ pathPrefixes p) :
    k.length ≤ p.length := by
  obtain ⟨i, hi, hk⟩ := mem_pathPrefixes.mp h
  rw [hk, List.length_take]
  omega

theorem pathPrefixes_mono {out : FPath} {g : Name} {k : FPath}
    (h : k ∈ pathPrefixes out) : k ∈ pathPrefixes (out ++ [g]) := by
  obtain ⟨i, hi, hk⟩ := mem_pathPrefixes.mp h
  rw [mem_pathPrefixes]
  refine ⟨i, ?_, ?_⟩
  · rw [List.length_append, List.length_singleton]; omega
  · rw [hk, take_append_small (by omega)]

theorem self_mem_pathPrefixes {p : FPath} (h : p ≠ []) : p ∈ pathPrefixes p := by
  rw [mem_pathPrefixes]
  have hl : 0 < p.length := List.length_pos.mpr h
  refine ⟨p.length - 1, by omega, ?_⟩
  rw [show p.length - 1 + 1 = p.length by omega]
  exact (List.take_of_length_le (Nat.le_refl _)).symm

theorem zipPath_ne_folder_child (a : Args) (g : FileGroup) (n : Name) :
    zipPathOf a g ≠ (a.output ++ [g.name]) ++ [n] := by
  intro h
  have := congrArg List.length h
  rw [zipPathOf, List.length_append, List.length_append, List.length_append,
    List.length_singleton, List.length_singleton, List.length_singleton] at this
  omega

theorem add_folder_setEntry_not_child {fs : FS} {folder k : FPath} {e : Entry}
    (h : ∀ n, k ≠ folder ++ [n]) :
    add_folder_to_zip (fs.setEntry k e) folder = add_folder_to_zip fs folder := by
  rw [add_folder_to_zip, add_folder_to_zip, iterdir_setEntry_of_not_child fs folder k e h]

theorem processGroup_done {a : Args} {fs : FS} {st : Stats} {g : FileGroup}
    {fs' : FS} {st' : Stats}
    (hdel : a.delete_originals = false) (hzip : a.zip_only = false)
    (h : processGroup a fs st g = .done fs' st') :
    Footprint (KGroup a g) (fun q => q = zipPathOf a g) fs fs' ∧
    (a.dry_run = false →
      (∀ k ∈ pathPrefixes (a.output ++ [g.name]), fs'.isDir k = true) ∧
      (∀ sf ∈ g.files, fs'.existsPath ((a.output ++ [g.name]) ++ [sf.name]) = true) ∧
      fs'.lookup (zipPathOf a g) =
        some (.file (.archive (add_folder_to_zip fs' (a.output ++ [g.name])))) ∧
      zipPathOf a g ∉ fs'.denied) ∧
    (a.dry_run = false →
      st'.copied + st'.skipped = st.copied + st.skipped + g.files.length ∧
      st'.deleted = st.deleted) := by
  cases hdry : a.dry_run with
  | true =>
    obtain ⟨stD, hD⟩ := processFiles_dry a (a.output ++ [g.name]) hdry g.files fs st
    have hmain : processGroup a fs st g = .done fs stD := by
      simp [processGroup, hdry, hD]
    rw [hmain] at h
    simp only [StepRes.done.injEq] at h
    obtain ⟨h1, h2⟩ := h
    subst h1
    refine ⟨Footprint.refl _ _ _, ?_, ?_⟩ <;>
      · intro hdf
        exact absurd hdf (by simp)
  | false =>
    cases hcf : create_folder fs (a.output ++ [g.name]) with
    | none =>
      have hmain : processGroup a fs st g = .aborted fs := by
        simp [processGroup, hdry, hcf]
      rw [hmain] at h
      exact absurd h (by simp)
    | some fsB =>
      cases hpf : processFiles a (a.output ++ [g.name]) g.files fsB st with
      | aborted fsx =>
        have hmain : processGroup a fs st g = .aborted fsx := by
          simp [processGroup, hdry, hcf, hpf]
        rw [hmain] at h
        exact absurd h (by simp)
      | done fsC stC =>
        cases hcz : create_zip fsC (a.output ++ [g.name])
            (a.output ++ [zipFileName g.name]) with
        | error e =>
          have hmain : processGroup a fs st g = .aborted fsC := by
            simp [processGroup, hdry, hcf, hpf, hcz]
          rw [hmain] at h
          exact absurd h (by simp)
        | ok fsD =>
          have hmain : processGroup a fs st g = .done fsD stC := by
            simp [processGroup, hdry, hcf, hpf, hcz, hzip]
          rw [hmain] at h
          simp only [StepRes.done.injEq] at h
          obtain ⟨h1, h2⟩ := h
          obtain ⟨hpff, hpfpost, hpfstats⟩ :=
            @processFiles_done (fun q => q = zipPathOf a g) a (a.output ++ [g.name])
              hdel g.files fsB st fsC stC hpf
          obtain ⟨hexf, hdirf, hwOk, hDeq⟩ := create_zip_ok hcz
          have f1 : Footprint (KGroup a g) (fun q => q = zipPathOf a g) fs fsB :=
            footprint_create_folder hcf (fun k hk => Or.inl hk)
          have f2 : Footprint (KGroup a g) (fun q => q = zipPathOf a g) fsB fsC :=
            hpff.weaken (fun q hq => Or.inr (Or.inl hq)) (fun q hq => hq)
          have f3 : Footprint (KGroup a g) (fun q => q = zipPathOf a g) fsC fsD := by
            rw [hDeq]
            exact footprint_setEntry_file fsC _ _ (Or.inr (Or.inr rfl)) rfl
              (writeOk_iff.mp hwOk).2.2
          refine ⟨h1 ▸ (f1.trans (f2.trans f3)), ?_, ?_⟩
          · intro _
            refine ⟨?_, ?_, ?_, ?_⟩
            · intro k hk
              exact h1 ▸ f3.isDir_mono k (f2.isDir_mono k (create_folder_post hcf k hk))
            · intro sf hsf
              exact h1 ▸ f3.exists_mono _ (hpfpost hdry sf hsf)
            · have hne : ∀ n, a.output ++ [zipFileName g.name] ≠
                  (a.output ++ [g.name]) ++ [n] :=
                fun n => zipPath_ne_folder_child a g n
              rw [← h1, hDeq, FS.lookup_setEntry,
                if_pos (show zipPathOf a g = a.output ++ [zipFileName g.name] from rfl)]
              rw [add_folder_setEntry_not_child hne]
            · rw [← h1, hDeq]
              show zipPathOf a g ∉ fsC.denied
              exact (writeOk_iff.mp hwOk).1
          · intro _
            rw [← h2]
            exact hpfstats hdry

/-! The whole group loop: footprint and the settled state it establishes. -/

/-- Post-state facts for a list of completed groups: folder exists, every
target exists, and the stored zip equals the zip of the current folder
listing. -/
def GroupsDone (a : Args) (gs : List FileGroup) (fs : FS) : Prop :=
  ∀ g ∈ gs,
    fs.isDir (a.output ++ [g.name]) = true ∧
    (∀ sf ∈ g.files, fs.existsPath ((a.output ++ [g.name]) ++ [sf.name]) = true) ∧
    fs.lookup (zipPathOf a g) =
      some (.file (.archive (add_folder_to_zip fs (a.output ++ [g.name])))) ∧
    zipPathOf a g ∉ fs.denied

def KGroups (a : Args) (gs : List FileGroup) (q : FPath) : Prop :=
  ∃ g ∈ gs, KGroup a g q

def KzGroups (a : Args) (gs : List FileGroup) (q : FPath) : Prop :=
  ∃ g ∈ gs, q = zipPathOf a g

theorem zipPathOf_inj {a : Args} {g g' : FileGroup}
    (h : zipPathOf a g = zipPathOf a g') : g.name = g'.name := by
  rw [zipPathOf, zipPathOf] at h
  have h2 := (append_singleton_inj h).2
  rw [zipFileName, zipFileName] at h2
  exact List.append_cancel_right h2

theorem folder_child_not_KGroup {a : Args} {g0 : Name} {g' : FileGroup}
    (hne : g'.name ≠ g0) (n : Name) :
    ¬ KGroup a g' ((a.output ++ [g0]) ++ [n]) := by
  intro h
  rcases h with h | ⟨n', h⟩ | h
  · have := length_of_mem_pathPrefixes h
    rw [List.length_append, List.length_append, List.length_append,
      List.length_singleton, List.length_singleton, List.length_singleton] at this
    omega
  · have h1 := (append_singleton_inj h).1
    have h2 := (append_singleton_inj h1).2
    exact hne h2.symm
  · rw [zipPathOf] at h
    have := congrArg List.length h
    rw [List.length_append, List.length_append, List.length_append,
      List.length_singleton, List.length_singleton, List.length_singleton] at this
    omega

theorem processGroups_done (a : Args)
    (hdel : a.delete_originals = false) (hzip : a.zip_only = false) :
    ∀ (gs : List FileGroup) (fs : FS) (st : Stats) (fs' : FS) (st' : Stats),
      ((gs.map (fun g => g.name)).Nodup) →
      processGroups a gs fs st = .done fs' st' →
      Footprint (KGroups a gs) (KzGroups a gs) fs fs' ∧
      (a.dry_run = false → GroupsDone a gs fs' ∧
        (gs ≠ [] → ∀ k ∈ pathPrefixes a.output, fs'.isDir k = true)) ∧
      (a.dry_run = false →
        st'.copied + st'.skipped =
          st.copied + st.skipped + (gs.map (fun g => g.files.length)).sum ∧
        st'.deleted = st.deleted) := by
  intro gs
  induction gs with
  | nil =>
    intro fs st fs' st' _ h
    simp only [processGroups, StepRes.done.injEq] at h
    obtain ⟨h1, h2⟩ := h
    subst h1; subst h2
    refine ⟨Footprint.refl _ _ _, ?_, ?_⟩
    · intro _
      exact ⟨fun g hg => absurd hg (by simp), fun hne => absurd rfl hne⟩
    · intro _
      simp
  | cons g rest ih =>
    intro fs st fs' st' hnd h
    rw [List.map_cons, List.nodup_cons] at hnd
    rw [processGroups] at h
    cases hpg : processGroup a fs st g with
    | aborted fsx => rw [hpg] at h; exact absurd h (by simp)
    | done fsA stA =>
      rw [hpg] at h
      obtain ⟨ihf, ihgd, ihstats⟩ := ih fsA stA fs' st' hnd.2 h
      obtain ⟨pgf, pgpost, pgstats⟩ := processGroup_done hdel hzip hpg
      have wstep : Footprint (KGroups a (g :: rest)) (KzGroups a (g :: rest)) fs fsA :=
        pgf.weaken (fun q hq => ⟨g, List.mem_cons_self _ _, hq⟩)
          (fun q hq => ⟨g, List.mem_cons_self _ _, hq⟩)
      have wrest : Footprint (KGroups a (g :: rest)) (KzGroups a (g :: rest)) fsA fs' :=
        ihf.weaken
          (fun q hq => by
            obtain ⟨g', hg', hq'⟩ := hq
            exact ⟨g', List.mem_cons_of_mem _ hg', hq'⟩)
          (fun q hq => by
            obtain ⟨g', hg', hq'⟩ := hq
            exact ⟨g', List.mem_cons_of_mem _ hg', hq'⟩)
      refine ⟨wstep.trans wrest, ?_, ?_⟩
      · intro hdry
        obtain ⟨hdirs, htargets, hzipv, hdenied⟩ := pgpost hdry
        constructor
        · intro g0 hg0
          rcases List.mem_cons.mp hg0 with h0 | h0
          · subst h0
            refine ⟨?_, ?_, ?_, ?_⟩
            · exact ihf.isDir_mono _ (hdirs _ (self_mem_pathPrefixes (by simp)))
            · intro sf hsf
              exact ihf.exists_mono _ (htargets sf hsf)
            · have hnKz : ¬ KzGroups a rest (zipPathOf a g0) := by
                rintro ⟨g', hg', hq⟩
                apply hnd.1
                rw [zipPathOf_inj hq]
                exact List.mem_map.mpr ⟨g', hg', rfl⟩
              have hkeep := ihf.file_keep _ _ hnKz hzipv
              have hiter : fs'.iterdir (a.output ++ [g0.name]) =
                  fsA.iterdir (a.output ++ [g0.name]) := by
                apply ihf.iterdir_frame
                intro n hK
                obtain ⟨g', hg', hq⟩ := hK
                have hneq : g'.name ≠ g0.name := by
                  intro he
                  apply hnd.1
                  rw [← he]
                  exact List.mem_map.mpr ⟨g', hg', rfl⟩
                exact folder_child_not_KGroup hneq n hq
              have haf : add_folder_to_zip fs' (a.output ++ [g0.name]) =
                  add_folder_to_zip fsA (a.output ++ [g0.name]) := by
                rw [add_folder_to_zip, add_folder_to_zip, hiter]
              rw [haf]
              exact hkeep
            · rw [ihf.denied_eq]
              exact hdenied
          · exact (ihgd hdry).1 g0 h0
        · intro _ k hk
          exact ihf.isDir_mono k (hdirs k (pathPrefixes_mono hk))
      · intro hdry
        obtain ⟨ih1, ih2⟩ := ihstats hdry
        obtain ⟨pg1, pg2⟩ := pgstats hdry
        rw [List.map_cons, List.sum_cons]
        constructor
        · omega
        · rw [ih2, pg2]

/-! Second-run analysis: a run over an already-organized destination is a
filesystem no-op that skips every file. -/

theorem scan_and_group_names_nodup (fs : FS) (src : FPath)
    (p : RegularExpression Char) :
    ((scan_and_group fs src p).map (fun g => g.name)).Nodup := by
  rw [scan_and_group, scanList_eq_foldl, foldl_groupStep_names, List.map_nil]
  exact firstSeen_nodup _ [] List.nodup_nil

theorem dropLast_append_singleton (l : FPath) (x : Name) :
    (l ++ [x]).dropLast = l := by
  simp

theorem pathPrefixes_append_singleton_eq (out : FPath) (g : Name) :
    pathPrefixes (out ++ [g]) = pathPrefixes out ++ [out ++ [g]] := by
  rw [pathPrefixes, pathPrefixes, List.length_append, List.length_singleton,
    List.range_succ, List.map_append, List.map_singleton]
  congr 1
  · apply List.map_congr_left
    intro i hi
    rw [List.mem_range] at hi
    exact take_append_small (by omega)
  · rw [List.take_of_length_le (by simp)]

theorem create_folder_append_none {fs : FS} {out : FPath} (g : Name)
    (h : create_folder fs out = none) : create_folder fs (out ++ [g]) = none := by
  rw [create_folder, pathPrefixes_append_singleton_eq, List.foldlM_append,
    ← create_folder, h]
  rfl

theorem footprint_setup_logging (fs : FS) (out : FPath) :
    Footprint (fun k => k ∈ pathPrefixes out ∨ k = logPath out)
      (fun q => q = logPath out) fs (setup_logging fs out) := by
  cases hcf : create_folder fs out with
  | none =>
    have hmain : setup_logging fs out = fs := by simp [setup_logging, hcf]
    rw [hmain]
    exact Footprint.refl _ _ fs
  | some fs1 =>
    have f1 : Footprint (fun k => k ∈ pathPrefixes out ∨ k = logPath out)
        (fun q => q = logPath out) fs fs1 :=
      footprint_create_folder hcf (fun k hk => Or.inl hk)
    cases hl : fs1.lookup (logPath out) with
    | some e =>
      have hmain : setup_logging fs out = fs1 := by simp [setup_logging, hcf, hl]
      rw [hmain]
      exact f1
    | none =>
      by_cases hd : logPath out ∈ fs1.denied
      · have hmain : setup_logging fs out = fs1 := by
          simp [setup_logging, hcf, hl, hd]
        rw [hmain]
        exact f1
      · have hmain : setup_logging fs out =
            fs1.setEntry (logPath out) (.file (.raw [])) := by
          simp [setup_logging, hcf, hl, hd]
        rw [hmain]
        exact f1.trans (footprint_setEntry_fresh fs1 _ _ (Or.inr rfl) hl)

/-- When the output chain already exists and the log file is present (or its
creation is denied), logging setup leaves the filesystem untouched. -/
theorem setup_logging_noop {fs : FS} {out : FPath}
    (hdirs : ∀ k ∈ pathPrefixes out, fs.isDir k = true)
    (hlog : (fs.lookup (logPath out)).isSome = true ∨
      (fs.lookup (logPath out) = none ∧ logPath out ∈ fs.denied)) :
    setup_logging fs out = fs := by
  have hcf : create_folder fs out = some fs := create_folder_noop hdirs
  rcases hlog with h | ⟨h1, h2⟩
  · cases hl : fs.lookup (logPath out) with
    | none => rw [hl] at h; exact absurd h (by simp)
    | some e => simp [setup_logging, hcf, hl]
  · simp [setup_logging, hcf, h1, h2]

theorem setup_logging_idem (fs : FS) (out : FPath) :
    setup_logging (setup_logging fs out) out = setup_logging fs out := by
  cases hcf : create_folder fs out with
  | none =>
    have hmain : setup_logging fs out = fs := by simp [setup_logging, hcf]
    rw [hmain]
    exact hmain
  | some fs1 =>
    have hdirs1 := create_folder_post hcf
    cases hl : fs1.lookup (logPath out) with
    | some e =>
      have hmain : setup_logging fs out = fs1 := by simp [setup_logging, hcf, hl]
      rw [hmain]
      exact setup_logging_noop hdirs1 (Or.inl (by rw [hl]; rfl))
    | none =>
      by_cases hd : logPath out ∈ fs1.denied
      · have hmain : setup_logging fs out = fs1 := by
          simp [setup_logging, hcf, hl, hd]
        rw [hmain]
        exact setup_logging_noop hdirs1 (Or.inr ⟨hl, hd⟩)
      · have hmain : setup_logging fs out =
            fs1.setEntry (logPath out) (.file (.raw [])) := by
          simp [setup_logging, hcf, hl, hd]
        rw [hmain]
        apply setup_logging_noop
        · intro k hk
          have hne : k ≠ logPath out := by
            intro he
            have hlen := length_of_mem_pathPrefixes hk
            have h2 := congrArg List.length he
            rw [logPath, List.length_append, List.length_singleton] at h2
            omega
          rw [FS.isDir_iff, FS.lookup_setEntry, if_neg hne]
          exact (FS.isDir_iff fs1 k).mp (hdirs1 k hk)
        · left
          rw [FS.lookup_setEntry, if_pos rfl]
          rfl

/-- If logging setup leaves no log file behind, either directory creation
already failed, or creating the log file was denied. -/
theorem setup_logging_log_none {fs : FS} {out : FPath}
    (hnone : (setup_logging fs out).lookup (logPath out) = none) :
    (setup_logging fs out = fs ∧ create_folder fs out = none) ∨
      logPath out ∈ (setup_logging fs out).denied := by
  cases hcf : create_folder fs out with
  | none =>
    left
    exact ⟨by simp [setup_logging, hcf], rfl⟩
  | some fs1 =>
    right
    cases hl : fs1.lookup (logPath out) with
    | some e =>
      have hmain : setup_logging fs out = fs1 := by simp [setup_logging, hcf, hl]
      rw [hmain, hl] at hnone
      exact absurd hnone (by simp)
    | none =>
      by_cases hd : logPath out ∈ fs1.denied
      · have hmain : setup_logging fs out = fs1 := by
          simp [setup_logging, hcf, hl, hd]
        rw [hmain]
        exact hd
      · have hmain : setup_logging fs out =
            fs1.setEntry (logPath out) (.file (.raw [])) := by
          simp [setup_logging, hcf, hl, hd]
        rw [hmain, FS.lookup_setEntry, if_pos rfl] at hnone
        exact absurd hnone (by simp)

/-- When every target already exists, the copy loop skips every file and
leaves the filesystem untouched. -/
theorem processFiles_allskip {a : Args} {gf : FPath} :
    ∀ (files : List SourceFile) (fs : FS) (st : Stats),
      (∀ sf ∈ files, fs.existsPath (gf ++ [sf.name]) = true) →
      processFiles a gf files fs st =
        .done fs ⟨st.copied, st.skipped + files.length, st.deleted⟩ := by
  intro files
  induction files with
  | nil =>
    intro fs st _
    rfl
  | cons sf rest ih =>
    intro fs st h
    have hskip := processFile_skip_of_exists a gf fs st sf (h sf (List.mem_cons_self _ _))
    rw [processFiles, hskip]
    show processFiles a gf rest fs ⟨st.copied, st.skipped + 1, st.deleted⟩ =
      .done fs ⟨st.copied, st.skipped + (sf :: rest).length, st.deleted⟩
    rw [ih fs ⟨st.copied, st.skipped + 1, st.deleted⟩
      (fun sf0 hsf0 => h sf0 (List.mem_cons_of_mem _ hsf0))]
    have hn : st.skipped + 1 + rest.length = st.skipped + (sf :: rest).length := by
      rw [List.length_cons]
      omega
    rw [hn]

/-- Re-processing an already-settled group is a filesystem no-op: the folder
chain already exists, every file is skipped, and the zip is rewritten in
place with the value it already holds. -/
theorem processGroup_noop {a : Args} {fs : FS} {g : FileGroup}
    (hdry : a.dry_run = false) (hzo : a.zip_only = false)
    (hout : a.output ≠ [])
    (houtdirs : ∀ k ∈ pathPrefixes a.output, fs.isDir k = true)
    (hgdir : fs.isDir (a.output ++ [g.name]) = true)
    (htargets : ∀ sf ∈ g.files,
      fs.existsPath ((a.output ++ [g.name]) ++ [sf.name]) = true)
    (hzipv : fs.lookup (zipPathOf a g) =
      some (.file (.archive (add_folder_to_zip fs (a.output ++ [g.name])))))
    (hzden : zipPathOf a g ∉ fs.denied) :
    ∀ st, processGroup a fs st g =
      .done fs ⟨st.copied, st.skipped + g.files.length, st.deleted⟩ := by
  intro st
  have hcf : create_folder fs (a.output ++ [g.name]) = some fs := by
    apply create_folder_noop
    intro k hk
    rcases pathPrefixes_append_singleton hk with h | h
    · exact houtdirs k h
    · rw [h]
      exact hgdir
  have hpf := @processFiles_allskip a (a.output ++ [g.name]) g.files fs st htargets
  have hzv : fs.lookup (a.output ++ [zipFileName g.name]) =
      some (.file (.archive (add_folder_to_zip fs (a.output ++ [g.name])))) := hzipv
  have hwOk : fs.writeOk (a.output ++ [zipFileName g.name]) = true := by
    apply writeOk_iff.mpr
    refine ⟨hzden, ?_, ?_⟩
    · rw [dropLast_append_singleton]
      exact houtdirs a.output (self_mem_pathPrefixes hout)
    · rw [hzv]
      intro hc
      exact absurd hc (by simp)
  have hcz : create_zip fs (a.output ++ [g.name]) (a.output ++ [zipFileName g.name]) =
      .ok fs := by
    rw [create_zip_eq,
      if_neg (by rw [exists_of_isDir hgdir]; simp),
      if_neg (by rw [hgdir]; simp),
      if_neg (by rw [hwOk]; simp),
      setEntry_lookup_self_eq hzv]
  simp [processGroup, hdry, hcf, hpf, hcz, hzo]

/-- Re-processing a fully settled list of groups is a filesystem no-op whose
only effect is counting every file as skipped. -/
theorem processGroups_noop {a : Args}
    (hdry : a.dry_run = false) (hzo : a.zip_only = false) (hout : a.output ≠ []) :
    ∀ (gs : List FileGroup) (fs : FS),
      (∀ k ∈ pathPrefixes a.output, fs.isDir k = true) →
      GroupsDone a gs fs →
      ∀ st, processGroups a gs fs st =
        .done fs ⟨st.copied, st.skipped + (gs.map (fun g => g.files.length)).sum,
          st.deleted⟩ := by
  intro gs
  induction gs with
  | nil =>
    intro fs _ _ st
    rfl
  | cons g rest ih =>
    intro fs hdirs hgd st
    obtain ⟨h1, h2, h3, h4⟩ := hgd g (List.mem_cons_self _ _)
    have hpg := processGroup_noop hdry hzo hout hdirs h1 h2 h3 h4 st
    rw [processGroups, hpg]
    show processGroups a rest fs ⟨st.copied, st.skipped + g.files.length, st.deleted⟩ =
      .done fs ⟨st.copied, st.skipped + ((g :: rest).map (fun g => g.files.length)).sum,
        st.deleted⟩
    rw [ih fs hdirs (fun g0 hg0 => hgd g0 (List.mem_cons_of_mem _ hg0)) _]
    have hn : st.skipped + g.files.length +
        (rest.map (fun g => g.files.length)).sum =
        st.skipped + ((g :: rest).map (fun g => g.files.length)).sum := by
      rw [List.map_cons, List.sum_cons]
      omega
    rw [hn]

theorem source_child_not_KGroups {a : Args} {gs : List FileGroup}
    (hd1 : a.source.take a.output.length ≠ a.output)
    (hd2 : a.output.take a.source.length ≠ a.source) :
    ∀ n : Name, ¬ KGroups a gs (a.source ++ [n]) := by
  intro n hK
  obtain ⟨g, hg, hq⟩ := hK
  refine source_child_not_under hd1 hd2 n ?_
  rcases hq with h | ⟨n', h⟩ | h
  · exact underOutput_of_pathPrefixes_append h
  · rw [h, List.append_assoc]
    exact underOutput_append a.output _
  · rw [h, zipPathOf]
    exact underOutput_append a.output _

/-- **C4**.  For a source directory disjoint from the destination and left
unchanged after a first successful plain run (no dry-run, no
--delete-originals, no --zip-only), running the organizer a second time
against the same destination succeeds and yields a destination state
literally identical to the state after the first run: every file is skipped
as a duplicate (the skip counter equals the number of files the first run
copied or skipped) and each group's archive is regenerated in place from the
same folder contents. -/
theorem c4_idempotent {a : Args} {fs0 fs1 : FS} {st1 : Stats}
    (hdry : a.dry_run = false) (hdel : a.delete_originals = false)
    (hzo : a.zip_only = false)
    (hd1 : a.source.take a.output.length ≠ a.output)
    (hd2 : a.output.take a.source.length ≠ a.source)
    (h1 : cliMain a fs0 = (0, fs1, st1)) :
    cliMain a fs1 = (0, fs1, ⟨0, st1.copied + st1.skipped, 0⟩) := by
  have hout : a.output ≠ [] := by
    intro he
    apply hd1
    rw [he, List.length_nil, List.take_zero]
  rw [cliMain_eq] at h1
  by_cases v1 : (validate_arguments a).isSome = true
  · rw [if_pos v1] at h1
    exact absurd h1 (by simp)
  rw [if_neg v1] at h1
  by_cases v2 : fs0.existsPath a.source = false
  · rw [if_pos v2] at h1
    exact absurd h1 (by simp)
  rw [if_neg v2] at h1
  by_cases v3 : fs0.isDir a.source = false
  · rw [if_pos v3] at h1
    exact absurd h1 (by simp)
  rw [if_neg v3] at h1
  have hexT : fs0.existsPath a.source = true := by
    cases hb : fs0.existsPath a.source with
    | false => exact absurd hb v2
    | true => rfl
  have hdirT : fs0.isDir a.source = true := by
    cases hb : fs0.isDir a.source with
    | false => exact absurd hb v3
    | true => rfl
  have fsp := footprint_setup_logging fs0 a.output
  cases hvp : validate_pattern a with
  | error e =>
    rw [hvp] at h1
    have h1' : ((1 : Nat), fs0, (⟨0, 0, 0⟩ : Stats)) = (0, fs1, st1) := h1
    exact absurd h1' (by simp)
  | ok p =>
    rw [hvp] at h1
    replace h1 :
        (if (scan_and_group (setup_logging fs0 a.output) a.source p).isEmpty = true
          then ((0 : Nat), setup_logging fs0 a.output, (⟨0, 0, 0⟩ : Stats))
          else
            match processGroups a
                (scan_and_group (setup_logging fs0 a.output) a.source p)
                (setup_logging fs0 a.output) ⟨0, 0, 0⟩ with
            | .done fs2 st => (0, fs2, st)
            | .aborted fs2 => (1, fs2, ⟨0, 0, 0⟩)) = (0, fs1, st1) := h1
    cases hemp : (scan_and_group (setup_logging fs0 a.output) a.source p).isEmpty with
    | true =>
      rw [if_pos hemp] at h1
      simp only [Prod.mk.injEq] at h1
      obtain ⟨-, hfs1, hst1⟩ := h1
      subst hfs1
      subst hst1
      rw [cliMain_eq, if_neg v1,
        if_neg (by rw [fsp.exists_mono _ hexT]; simp),
        if_neg (by rw [fsp.isDir_mono _ hdirT]; simp)]
      simp only [hvp]
      rw [setup_logging_idem, if_pos hemp]
    | false =>
      rw [if_neg (by rw [hemp]; simp)] at h1
      cases hpgs : processGroups a
          (scan_and_group (setup_logging fs0 a.output) a.source p)
          (setup_logging fs0 a.output) ⟨0, 0, 0⟩ with
      | aborted fs2 =>
        rw [hpgs] at h1
        have h1' : ((1 : Nat), fs2, (⟨0, 0, 0⟩ : Stats)) = (0, fs1, st1) := h1
        exact absurd h1' (by simp)
      | done fs2 st =>
        rw [hpgs] at h1
        have h1' : ((0 : Nat), fs2, st) = (0, fs1, st1) := h1
        simp only [Prod.mk.injEq] at h1'
        obtain ⟨-, hfs2, hst⟩ := h1'
        rw [hfs2, hst] at hpgs
        have hnd := scan_and_group_names_nodup (setup_logging fs0 a.output) a.source p
        obtain ⟨fp, hgd, hstats⟩ :=
          processGroups_done a hdel hzo _ _ _ _ _ hnd hpgs
        obtain ⟨hGD, houtdirs⟩ := hgd hdry
        have hne : scan_and_group (setup_logging fs0 a.output) a.source p ≠ [] := by
          intro he
          rw [he] at hemp
          exact absurd hemp (by simp)
        have houtdirs1 := houtdirs hne
        have hex1 : fs1.existsPath a.source = true :=
          fp.exists_mono _ (fsp.exists_mono _ hexT)
        have hdir1 : fs1.isDir a.source = true :=
          fp.isDir_mono _ (fsp.isDir_mono _ hdirT)
        have hlogfact : (fs1.lookup (logPath a.output)).isSome = true ∨
            (fs1.lookup (logPath a.output) = none ∧
              logPath a.output ∈ fs1.denied) := by
          cases hF1 : fs1.lookup (logPath a.output) with
          | some e =>
            left
            rfl
          | none =>
            right
            refine ⟨rfl, ?_⟩
            have hLnone : (setup_logging fs0 a.output).lookup (logPath a.output) =
                none := by
              cases hL : (setup_logging fs0 a.output).lookup (logPath a.output) with
              | none => rfl
              | some e =>
                have hmono : fs1.existsPath (logPath a.output) = true :=
                  fp.exists_mono _ (by rw [FS.existsPath, hL]; rfl)
                rw [FS.existsPath, hF1] at hmono
                exact absurd hmono (by simp)
            rw [fp.denied_eq]
            rcases setup_logging_log_none hLnone with ⟨heq, hcfn⟩ | hden
            · exfalso
              obtain ⟨g, rest, hgs⟩ := List.exists_cons_of_ne_nil hne
              rw [hgs, processGroups] at hpgs
              have hcfn2 : create_folder (setup_logging fs0 a.output)
                  (a.output ++ [g.name]) = none := by
                rw [heq]
                exact create_folder_append_none g.name hcfn
              have hpg : processGroup a (setup_logging fs0 a.output) ⟨0, 0, 0⟩ g =
                  .aborted (setup_logging fs0 a.output) := by
                simp [processGroup, hdry, hcfn2]
              rw [hpg] at hpgs
              exact absurd hpgs (by simp)
            · exact hden
        have hsl1 : setup_logging fs1 a.output = fs1 :=
          setup_logging_noop houtdirs1 hlogfact
        rw [cliMain_eq, if_neg v1,
          if_neg (by rw [hex1]; simp),
          if_neg (by rw [hdir1]; simp)]
        simp only [hvp]
        rw [hsl1]
        have hscan : scan_and_group fs1 a.source p =
            scan_and_group (setup_logging fs0 a.output) a.source p := by
          rw [scan_and_group, scan_and_group,
            fp.iterdir_frame a.source (source_child_not_KGroups hd1 hd2)]
        rw [hscan, if_neg (by rw [hemp]; simp)]
        have hnoop := processGroups_noop hdry hzo hout
          (scan_and_group (setup_logging fs0 a.output) a.source p) fs1
          houtdirs1 hGD ⟨0, 0, 0⟩
        rw [hnoop]
        show ((0 : Nat), fs1,
            (⟨0, 0 + ((scan_and_group (setup_logging fs0 a.output) a.source p).map
              (fun g => g.files.length)).sum, 0⟩ : Stats)) =
          (0, fs1, ⟨0, st1.copied + st1.skipped, 0⟩)
        obtain ⟨hsum, -⟩ := hstats hdry
        have heq2 : (0 : Nat) +
            ((scan_and_group (setup_logging fs0 a.output) a.source p).map
              (fun g => g.files.length)).sum = st1.copied + st1.skipped := by
          simp only at hsum
          omega
        rw [heq2]

def c4fs0 : FS :=
  ⟨[([['s']], .dir), ([['s'], ['a']], .file (.raw [1]))], []⟩

def c4args : Args :=
  ⟨[['s']], ['a'], some (RegularExpression.char 'a'), [['o']], false, false, false⟩

def c4fs1 : FS := (cliMain c4args c4fs0).2.1

def c4st1 : Stats := (cliMain c4args c4fs0).2.2

/-- Witness for C4: a first run that copies one file, then a second run that
skips it and reproduces the identical destination state. -/
theorem c4_witness :
    cliMain c4args c4fs0 = (0, c4fs1, c4st1) ∧
    cliMain c4args c4fs1 = (0, c4fs1, ⟨0, c4st1.copied + c4st1.skipped, 0⟩) :=
  ⟨by decide,
   @c4_idempotent c4args c4fs0 c4fs1 c4st1 rfl rfl rfl
     (by decide) (by decide) (by decide)⟩
